import Mathlib

/-
Verification of the Spec Kitty "Universal Bridge" synchronization engine.

This file gives a shallow embedding, in Lean 4, of the Python sources under
tools/bridge/ (speckit_system_bridge.py, sync_rules.py, sync_skills.py,
verify_bridge_integrity.py) and proves or refutes the frozen claims about
them.  Strings are modelled as `List Char`; Python `str.replace`,
`str.split`, `str.find`, `str.strip` and friends are re-implemented with
their exact left-to-right, non-overlapping semantics; the filesystem is
modelled as a finite list of (path, content, readable) entries plus a list
of directories.
-/

namespace Bridge

/-- Convert a Lean string literal to the `List Char` representation used
throughout the development. -/
def toL (s : String) : List Char := s.data

/-! ### Python `str.replace` (all non-overlapping occurrences, left to right) -/

/-- Fuelled worker for `replaceAll`; the fuel is always at least the length
of the string, so the first branch is never taken in practice.  Structural
recursion keeps the function kernel-reducible. -/
def replaceAllF : Nat → List Char → List Char → List Char → List Char
  | 0, s, _, _ => s
  | _ + 1, [], _, _ => []
  | n + 1, c :: t, pat, rep =>
    if pat ≠ [] ∧ pat <+: (c :: t) then
      rep ++ replaceAllF n ((c :: t).drop pat.length) pat rep
    else
      c :: replaceAllF n t pat rep

/-- Python `s.replace(pat, rep)` for a non-empty `pat`: scan left to right,
replacing each leftmost occurrence and continuing after it.  (For `pat = []`
the guard fails and the string is returned unchanged; the engine only ever
replaces non-empty literals.) -/
def replaceAll (s pat rep : List Char) : List Char :=
  replaceAllF s.length s pat rep

theorem replaceAllF_fuel :
    ∀ n m s pat rep, s.length ≤ n → s.length ≤ m →
      replaceAllF n s pat rep = replaceAllF m s pat rep := by
  intro n
  induction n with
  | zero =>
    intro m s pat rep hn _
    have hs : s = [] := List.length_eq_zero.mp (Nat.le_zero.mp hn)
    subst hs
    match m with
    | 0 => rfl
    | _ + 1 => rfl
  | succ n ih =>
    intro m s pat rep hn hm
    match s with
    | [] =>
      match m with
      | 0 => rfl
      | _ + 1 => rfl
    | c :: t =>
      match m, hm with
      | m2 + 1, hm =>
        rw [replaceAllF, replaceAllF]
        by_cases hcond : pat ≠ [] ∧ pat <+: (c :: t)
        · rw [if_pos hcond, if_pos hcond]
          have hlen : ((c :: t).drop pat.length).length ≤ t.length := by
            simp only [List.length_drop, List.length_cons]
            have : 0 < pat.length := List.length_pos.mpr hcond.1
            omega
          simp only [List.length_cons] at hn hm
          rw [ih m2 ((c :: t).drop pat.length) pat rep (by omega) (by omega)]
        · rw [if_neg hcond, if_neg hcond]
          simp only [List.length_cons] at hn hm
          rw [ih m2 t pat rep (by omega) (by omega)]

theorem replaceAll_nil (pat rep : List Char) : replaceAll [] pat rep = [] := rfl

theorem replaceAll_cons_pos {pat : List Char} (rep : List Char) {c : Char} {t : List Char}
    (hne : pat ≠ []) (h : pat <+: (c :: t)) :
    replaceAll (c :: t) pat rep = rep ++ replaceAll ((c :: t).drop pat.length) pat rep := by
  show replaceAllF (t.length + 1) (c :: t) pat rep = _
  rw [replaceAllF, if_pos ⟨hne, h⟩, replaceAll]
  rw [replaceAllF_fuel t.length ((c :: t).drop pat.length).length _ pat rep
    (by simp only [List.length_drop, List.length_cons]
        have : 0 < pat.length := List.length_pos.mpr hne
        omega)
    le_rfl]

theorem replaceAll_cons_neg {pat : List Char} (rep : List Char) {c : Char} {t : List Char}
    (h : ¬ (pat ≠ [] ∧ pat <+: (c :: t))) :
    replaceAll (c :: t) pat rep = c :: replaceAll t pat rep := by
  show replaceAllF (t.length + 1) (c :: t) pat rep = _
  rw [replaceAllF, if_neg h, replaceAll]

theorem replaceAll_pos {s pat : List Char} (rep : List Char)
    (hne : pat ≠ []) (h : pat <+: s) :
    replaceAll s pat rep = rep ++ replaceAll (s.drop pat.length) pat rep := by
  match s with
  | [] => exact absurd (List.prefix_nil.mp h) hne
  | c :: t => exact replaceAll_cons_pos rep hne h

/-! ### Helper lemmas about infixes of appends -/

theorem infixAppR {q : List Char} (u : List Char) {v : List Char}
    (h : q <:+: v) : q <:+: u ++ v := by
  obtain ⟨x, y, hx⟩ := h
  exact ⟨u ++ x, y, by rw [← hx]; simp⟩

theorem infixAppL {q u : List Char} (v : List Char)
    (h : q <:+: u) : q <:+: u ++ v := by
  obtain ⟨x, y, hx⟩ := h
  exact ⟨x, y ++ v, by rw [← hx]; simp⟩

theorem suffixOfSuffixCons {w : List Char} {c : Char} {q : List Char}
    (h : c :: w <:+ q) : w <:+ q :=
  (List.suffix_cons c w).trans h

/-! ### Core occurrence lemmas for `replaceAll`

`suffix_window` tracks a proper suffix of a word `q` that appears as a prefix
of a `replaceAll` output back into the input: under no-overlap conditions
between `q` and the replacement `rep`, such a prefix can only come from
copied input characters. -/

theorem suffix_window (q pat rep : List Char)
    (hb : ∀ j, 0 < j → j < q.length → ¬ (q.drop j <+: rep))
    (hc : ¬ rep <:+: q) :
    ∀ s w, w <:+ q → w ≠ [] → w.length < q.length →
      w <+: replaceAll s pat rep → w <+: s := by
  intro s
  induction s with
  | nil =>
    intro w _ hwne _ hw
    rw [replaceAll_nil] at hw
    exact absurd (List.prefix_nil.mp hw) hwne
  | cons c t ih =>
    intro w hwq hwne hlen hw
    by_cases hp : pat ≠ [] ∧ pat <+: (c :: t)
    · rw [replaceAll_cons_pos rep hp.1 hp.2] at hw
      rcases List.prefix_or_prefix_of_prefix hw (List.prefix_append rep _) with h1 | h1
      · -- w is a prefix of rep, i.e. a short non-empty suffix of q is a prefix of rep
        obtain ⟨u, hu⟩ := hwq
        have hdrop : q.drop u.length = w := by rw [← hu, List.drop_left]
        have hlq : u.length + w.length = q.length := by
          have h5 := congrArg List.length hu
          rw [List.length_append] at h5
          exact h5
        have hwpos : 0 < w.length := List.length_pos.mpr hwne
        have h0 : 0 < u.length := by omega
        have hult : u.length < q.length := by omega
        exact absurd (hdrop ▸ h1) (hb u.length h0 hult)
      · -- rep is a prefix of w, so rep is an infix of q
        exact absurd (h1.isInfix.trans hwq.isInfix) hc
    · rw [replaceAll_cons_neg rep hp] at hw
      rcases List.prefix_cons_iff.mp hw with h1 | ⟨w2, hw2, hpre⟩
      · exact absurd h1 hwne
      · subst hw2
        by_cases hw2ne : w2 = []
        · subst hw2ne
          exact List.cons_prefix_cons.mpr ⟨rfl, List.nil_prefix⟩
        · have hsw2 : w2 <:+ q := suffixOfSuffixCons hwq
          have hlw2 : w2.length < q.length := by
            simp only [List.length_cons] at hlen
            omega
          exact List.cons_prefix_cons.mpr ⟨rfl, ih w2 hsw2 hw2ne hlw2 hpre⟩

/-- After `replaceAll s pat rep`, no occurrence of `pat` remains, provided
`pat` and `rep` cannot overlap: `pat` is not inside `rep`, no non-empty
proper suffix of `pat` is a prefix of `rep`, `rep` is not inside `pat`, and
no short non-empty suffix of `rep` is a prefix of `pat`. -/
theorem replaceAll_kills (pat rep : List Char) (hne : pat ≠ [])
    (hA : ¬ pat <:+: rep)
    (hb : ∀ j, 0 < j → j < pat.length → ¬ (pat.drop j <+: rep))
    (hc : ¬ rep <:+: pat)
    (hd : ∀ i, i < rep.length → rep.length - i < pat.length → ¬ (rep.drop i <+: pat)) :
    ∀ s, ¬ pat <:+: replaceAll s pat rep := by
  have main : ∀ n s, s.length ≤ n → ¬ pat <:+: replaceAll s pat rep := by
    intro n
    induction n with
    | zero =>
      intro s hs h
      have hnil : s = [] := List.length_eq_zero.mp (Nat.le_zero.mp hs)
      subst hnil
      rw [replaceAll_nil] at h
      exact hne (List.infix_nil.mp h)
    | succ n ih =>
      intro s hs hcontra
      match s with
      | [] =>
        rw [replaceAll_nil] at hcontra
        exact hne (List.infix_nil.mp hcontra)
      | c :: t =>
        by_cases hp : pat ≠ [] ∧ pat <+: (c :: t)
        · obtain ⟨s2, hs2⟩ := hp.2
          rw [replaceAll_cons_pos rep hp.1 hp.2] at hcontra
          have hdrop : (c :: t).drop pat.length = s2 := by
            rw [← hs2, List.drop_left]
          rw [hdrop] at hcontra
          have hlens2 : s2.length ≤ n := by
            have h6 := congrArg List.length hs2
            rw [List.length_append] at h6
            have h7 : 0 < pat.length := List.length_pos.mpr hne
            simp only [List.length_cons] at h6 hs
            omega
          obtain ⟨a, b, heq⟩ := hcontra
          rw [List.append_assoc] at heq
          rcases List.append_eq_append_iff.mp heq with ⟨a2, hrep, hpb⟩ | ⟨c2, _, hT⟩
          · -- hrep : rep = a ++ a2, hpb : pat ++ b = a2 ++ replaceAll s2 pat rep
            rcases List.append_eq_append_iff.mp hpb with ⟨p2, ha2, _⟩ | ⟨q2, hpat, hT2⟩
            · -- ha2 : a2 = pat ++ p2 : occurrence inside rep
              have h1 : pat <:+: a2 := by
                rw [ha2]; exact (List.prefix_append pat p2).isInfix
              have h2 : a2 <:+: rep := by
                rw [hrep]; exact (List.suffix_append a a2).isInfix
              exact hA (h1.trans h2)
            · -- hpat : pat = a2 ++ q2, hT2 : replaceAll s2 pat rep = q2 ++ b
              by_cases ha2nil : a2 = []
              · subst ha2nil
                simp only [List.nil_append] at hpat
                exact ih s2 hlens2 ⟨[], b, by rw [hT2, ← hpat]; simp⟩
              · by_cases hq2nil : q2 = []
                · subst hq2nil
                  rw [List.append_nil] at hpat
                  refine hA ?_
                  rw [hpat, hrep]
                  exact (List.suffix_append a a2).isInfix
                · have h1 : a2 <+: pat := by
                    rw [hpat]; exact List.prefix_append a2 q2
                  have h2 : rep.drop a.length = a2 := by
                    rw [hrep, List.drop_left]
                  have hl1 : a.length + a2.length = rep.length := by
                    have h8 := congrArg List.length hrep
                    rw [List.length_append] at h8
                    omega
                  have hl2 : a2.length + q2.length = pat.length := by
                    have h9 := congrArg List.length hpat
                    rw [List.length_append] at h9
                    omega
                  have hi : a.length < rep.length := by
                    have h10 : 0 < a2.length := List.length_pos.mpr ha2nil
                    omega
                  have hj : rep.length - a.length < pat.length := by
                    have h11 : 0 < q2.length := List.length_pos.mpr hq2nil
                    omega
                  exact hd a.length hi hj (h2 ▸ h1)
          · -- hT : replaceAll s2 pat rep = c2 ++ (pat ++ b) : occurrence further right
            exact ih s2 hlens2 ⟨c2, b, by rw [hT, List.append_assoc]⟩
        · rw [replaceAll_cons_neg rep hp] at hcontra
          rcases List.infix_cons_iff.mp hcontra with h1 | h1
          · rcases List.prefix_cons_iff.mp h1 with h2 | ⟨w, hw, hpre⟩
            · exact hne h2
            · by_cases hwnil : w = []
              · subst hwnil
                exact hp ⟨hne, by rw [hw]; exact List.cons_prefix_cons.mpr ⟨rfl, List.nil_prefix⟩⟩
              · have hws : w <:+ pat := by rw [hw]; exact List.suffix_cons c w
                have hwl : w.length < pat.length := by rw [hw]; simp
                have hwin := suffix_window pat pat rep hb hc t w hws hwnil hwl hpre
                exact hp ⟨hne, by rw [hw]; exact List.cons_prefix_cons.mpr ⟨rfl, hwin⟩⟩
          · have hlt : t.length ≤ n := by
              simp only [List.length_cons] at hs
              omega
            exact ih t hlt h1
  exact fun s => main s.length s le_rfl

/-- `replaceAll` creates no new occurrences of an unrelated word `q`:
if `q` occurs in the output it already occurred in the input, provided `q`
cannot overlap the replacement `rep`. -/
theorem replaceAll_no_new (q pat rep : List Char) (hq : q ≠ []) (hp : pat ≠ [])
    (hA : ¬ q <:+: rep)
    (hb : ∀ j, 0 < j → j < q.length → ¬ (q.drop j <+: rep))
    (hc : ¬ rep <:+: q)
    (hd : ∀ i, i < rep.length → rep.length - i < q.length → ¬ (rep.drop i <+: q)) :
    ∀ s, q <:+: replaceAll s pat rep → q <:+: s := by
  have main : ∀ n s, s.length ≤ n → q <:+: replaceAll s pat rep → q <:+: s := by
    intro n
    induction n with
    | zero =>
      intro s hs h
      have hnil : s = [] := List.length_eq_zero.mp (Nat.le_zero.mp hs)
      subst hnil
      rwa [replaceAll_nil] at h
    | succ n ih =>
      intro s hs hocc
      match s with
      | [] => rwa [replaceAll_nil] at hocc
      | c :: t =>
        by_cases hcond : pat ≠ [] ∧ pat <+: (c :: t)
        · obtain ⟨s2, hs2⟩ := hcond.2
          rw [replaceAll_cons_pos rep hcond.1 hcond.2] at hocc
          have hdrop : (c :: t).drop pat.length = s2 := by
            rw [← hs2, List.drop_left]
          rw [hdrop] at hocc
          have hlens2 : s2.length ≤ n := by
            have h6 := congrArg List.length hs2
            rw [List.length_append] at h6
            have h7 : 0 < pat.length := List.length_pos.mpr hp
            simp only [List.length_cons] at h6 hs
            omega
          have lift : q <:+: s2 → q <:+: c :: t := by
            intro h
            rw [← hs2]
            exact infixAppR pat h
          obtain ⟨a, b, heq⟩ := hocc
          rw [List.append_assoc] at heq
          rcases List.append_eq_append_iff.mp heq with ⟨a2, hrep, hqb⟩ | ⟨c2, _, hT⟩
          · rcases List.append_eq_append_iff.mp hqb with ⟨p2, ha2, _⟩ | ⟨q2, hq1, hT2⟩
            · have h1 : q <:+: a2 := by
                rw [ha2]; exact (List.prefix_append q p2).isInfix
              have h2 : a2 <:+: rep := by
                rw [hrep]; exact (List.suffix_append a a2).isInfix
              exact absurd (h1.trans h2) hA
            · by_cases ha2nil : a2 = []
              · subst ha2nil
                simp only [List.nil_append] at hq1
                exact lift (ih s2 hlens2 ⟨[], b, by rw [hT2, ← hq1]; simp⟩)
              · by_cases hq2nil : q2 = []
                · subst hq2nil
                  rw [List.append_nil] at hq1
                  refine absurd ?_ hA
                  rw [hq1, hrep]
                  exact (List.suffix_append a a2).isInfix
                · have h1 : a2 <+: q := by
                    rw [hq1]; exact List.prefix_append a2 q2
                  have h2 : rep.drop a.length = a2 := by
                    rw [hrep, List.drop_left]
                  have hl1 : a.length + a2.length = rep.length := by
                    have h8 := congrArg List.length hrep
                    rw [List.length_append] at h8
                    omega
                  have hl2 : a2.length + q2.length = q.length := by
                    have h9 := congrArg List.length hq1
                    rw [List.length_append] at h9
                    omega
                  have hi : a.length < rep.length := by
                    have h10 : 0 < a2.length := List.length_pos.mpr ha2nil
                    omega
                  have hj : rep.length - a.length < q.length := by
                    have h11 : 0 < q2.length := List.length_pos.mpr hq2nil
                    omega
                  exact absurd (h2 ▸ h1) (hd a.length hi hj)
          · exact lift (ih s2 hlens2 ⟨c2, b, by rw [hT, List.append_assoc]⟩)
        · rw [replaceAll_cons_neg rep hcond] at hocc
          rcases List.infix_cons_iff.mp hocc with h1 | h1
          · rcases List.prefix_cons_iff.mp h1 with h2 | ⟨w, hw, hpre⟩
            · exact absurd h2 hq
            · by_cases hwnil : w = []
              · subst hwnil
                exact (show q <+: c :: t by
                  rw [hw]; exact List.cons_prefix_cons.mpr ⟨rfl, List.nil_prefix⟩).isInfix
              · have hws : w <:+ q := by rw [hw]; exact List.suffix_cons c w
                have hwl : w.length < q.length := by rw [hw]; simp
                have hwt := suffix_window q pat rep hb hc t w hws hwnil hwl hpre
                exact (show q <+: c :: t by
                  rw [hw]; exact List.cons_prefix_cons.mpr ⟨rfl, hwt⟩).isInfix
          · have hlt : t.length ≤ n := by
              simp only [List.length_cons] at hs
              omega
            exact List.infix_cons (ih t hlt h1)
  exact fun s => main s.length s le_rfl

/-- If `pat` occurs in the input, `rep` occurs in the output of `replaceAll`. -/
theorem replaceAll_inserts (pat rep : List Char) (hne : pat ≠ []) :
    ∀ s, pat <:+: s → rep <:+: replaceAll s pat rep := by
  intro s
  induction s with
  | nil =>
    intro h
    exact absurd (List.infix_nil.mp h) hne
  | cons c t ih =>
    intro h
    by_cases hp : pat ≠ [] ∧ pat <+: (c :: t)
    · rw [replaceAll_cons_pos rep hp.1 hp.2]
      exact infixAppL _ List.infix_rfl
    · rw [replaceAll_cons_neg rep hp]
      have ht : pat <:+: t := by
        rcases List.infix_cons_iff.mp h with h1 | h1
        · exact absurd ⟨hne, h1⟩ hp
        · exact h1
      exact List.infix_cons (ih ht)

/-- Auxiliary to `replaceAll_preserves`: a suffix `w` of `q` placed at the
head of the input survives as a prefix of the output, because `pat` cannot
match starting inside `w`. -/
theorem preserve_head (q pat rep : List Char)
    (h1 : ¬ pat <:+: q)
    (h3 : ∀ j, 0 < j → j < pat.length → ¬ (pat.take j <:+ q)) :
    ∀ w, w <:+ q → ∀ b, w <+: replaceAll (w ++ b) pat rep := by
  intro w
  induction w with
  | nil => intro _ b; exact List.nil_prefix
  | cons c w2 ih =>
    intro hwq b
    have hnp : ¬ (pat ≠ [] ∧ pat <+: ((c :: w2) ++ b)) := by
      rintro ⟨hne, hpre⟩
      rcases List.prefix_or_prefix_of_prefix hpre (List.prefix_append (c :: w2) b) with hh | hh
      · exact h1 (hh.isInfix.trans hwq.isInfix)
      · by_cases heq : (c :: w2).length = pat.length
        · have hqp : c :: w2 = pat := hh.eq_of_length heq
          exact h1 (hqp ▸ hwq.isInfix)
        · have hlt : (c :: w2).length < pat.length :=
            Nat.lt_of_le_of_ne hh.length_le heq
          obtain ⟨r, hr⟩ := hh
          have htake : pat.take (c :: w2).length = c :: w2 := by
            rw [← hr, List.take_left]
          refine h3 (c :: w2).length (by simp) hlt ?_
          rw [htake]
          exact hwq
    rw [List.cons_append, replaceAll_cons_neg rep (by rwa [← List.cons_append])]
    exact List.cons_prefix_cons.mpr ⟨rfl, ih (suffixOfSuffixCons hwq) b⟩

/-- `replaceAll` preserves occurrences of a word `q` that cannot overlap any
occurrence of the pattern `pat`. -/
theorem replaceAll_preserves (q pat rep : List Char) (hp : pat ≠ [])
    (h1 : ¬ pat <:+: q) (h2 : ¬ q <:+: pat)
    (h3 : ∀ j, 0 < j → j < pat.length → ¬ (pat.take j <:+ q))
    (h4 : ∀ j, 0 < j → j < pat.length → ¬ (pat.drop j <+: q)) :
    ∀ s, q <:+: s → q <:+: replaceAll s pat rep := by
  have main : ∀ n s, s.length ≤ n → q <:+: s → q <:+: replaceAll s pat rep := by
    intro n
    induction n with
    | zero =>
      intro s hs h
      have hnil : s = [] := List.length_eq_zero.mp (Nat.le_zero.mp hs)
      subst hnil
      rwa [replaceAll_nil]
    | succ n ih =>
      intro s hs hocc
      match s with
      | [] => rwa [replaceAll_nil]
      | c :: t =>
        by_cases hcond : pat ≠ [] ∧ pat <+: (c :: t)
        · obtain ⟨s2, hs2⟩ := hcond.2
          rw [replaceAll_cons_pos rep hcond.1 hcond.2]
          have hdrop : (c :: t).drop pat.length = s2 := by
            rw [← hs2, List.drop_left]
          rw [hdrop]
          have hlens2 : s2.length ≤ n := by
            have h6 := congrArg List.length hs2
            rw [List.length_append] at h6
            have h7 : 0 < pat.length := List.length_pos.mpr hp
            simp only [List.length_cons] at h6 hs
            omega
          obtain ⟨a, b, heq⟩ := hocc
          rw [List.append_assoc, ← hs2] at heq
          rcases List.append_eq_append_iff.mp heq with ⟨a2, hpat2, hqb⟩ | ⟨c2, _, hs2eq⟩
          · -- hpat2 : pat = a ++ a2, hqb : q ++ b = a2 ++ s2
            rcases List.append_eq_append_iff.mp hqb with ⟨p2, ha2, _⟩ | ⟨q2, hq1, hs2b⟩
            · have hx1 : q <:+: a2 := by
                rw [ha2]; exact (List.prefix_append q p2).isInfix
              have hx2 : a2 <:+: pat := by
                rw [hpat2]; exact (List.suffix_append a a2).isInfix
              exact absurd (hx1.trans hx2) h2
            · by_cases ha2nil : a2 = []
              · subst ha2nil
                simp only [List.nil_append] at hq1
                exact infixAppR rep (ih s2 hlens2 ⟨[], b, by rw [hs2b, ← hq1]; simp⟩)
              · by_cases hq2nil : q2 = []
                · subst hq2nil
                  rw [List.append_nil] at hq1
                  refine absurd ?_ h2
                  rw [hq1, hpat2]
                  exact (List.suffix_append a a2).isInfix
                · have hx1 : a2 <+: q := by
                    rw [hq1]; exact List.prefix_append a2 q2
                  have hx2 : pat.drop a.length = a2 := by
                    rw [hpat2, List.drop_left]
                  by_cases hanil : a = []
                  · subst hanil
                    simp only [List.nil_append] at hpat2
                    refine absurd ?_ h1
                    rw [hpat2]
                    exact hx1.isInfix
                  · have hl1 : a.length + a2.length = pat.length := by
                      have h8 := congrArg List.length hpat2
                      rw [List.length_append] at h8
                      omega
                    have hi : 0 < a.length := List.length_pos.mpr hanil
                    have hj : a.length < pat.length := by
                      have h10 : 0 < a2.length := List.length_pos.mpr ha2nil
                      omega
                    exact absurd (hx2 ▸ hx1) (h4 a.length hi hj)
          · exact infixAppR rep (ih s2 hlens2 ⟨c2, b, by rw [hs2eq, List.append_assoc]⟩)
        · rw [replaceAll_cons_neg rep hcond]
          rcases List.infix_cons_iff.mp hocc with hh | hh
          · rcases List.prefix_cons_iff.mp hh with h0 | ⟨q2, hq2, hpre⟩
            · subst h0; exact List.nil_infix
            · obtain ⟨b, hb2⟩ := hpre
              have hsw : q2 <:+ q := by rw [hq2]; exact List.suffix_cons c q2
              obtain ⟨r, hr⟩ := preserve_head q pat rep h1 h3 q2 hsw b
              refine ⟨[], r, ?_⟩
              rw [hq2, List.nil_append, ← hb2, ← hr]
              rfl
          · have hlt : t.length ≤ n := by
              simp only [List.length_cons] at hs
              omega
            exact List.infix_cons (ih t hlt hh)
  exact fun s => main s.length s le_rfl

/-! ### More Python string primitives -/

/-- Split at the first occurrence of `pat`: returns the part strictly before
the occurrence and the part strictly after it, or `none` when `pat` does not
occur.  This is the primitive behind Python `in`, `find` and `split`. -/
def splitFirst (l pat : List Char) : Option (List Char × List Char) :=
  match l with
  | [] => if pat = [] then some ([], []) else none
  | c :: t =>
    if pat <+: (c :: t) then some ([], (c :: t).drop pat.length)
    else
      match splitFirst t pat with
      | some (a, r) => some (c :: a, r)
      | none => none

/-- Python `pat in l` (substring test). -/
def containsB (l pat : List Char) : Bool := (splitFirst l pat).isSome

/-- Python `l.find(pat)` as an `Option` (index of first occurrence). -/
def pyFind (l pat : List Char) : Option Nat :=
  (splitFirst l pat).map (fun p => p.1.length)

/-- Python `l.find(pat, start)` as an `Option`. -/
def findFrom (l pat : List Char) (start : Nat) : Option Nat :=
  (pyFind (l.drop start) pat).map (· + start)

/-- Python `l.split(pat)[1]` when `pat` occurs in `l`: the segment between
the first and the second occurrence of `pat` (or everything after the first
occurrence when it is the only one). -/
def pySplitAt1 (l pat : List Char) : List Char :=
  match splitFirst l pat with
  | none => []
  | some (_, r) =>
    match splitFirst r pat with
    | some (a, _) => a
    | none => r

/-- Python `l.split("\n")`. -/
def splitOnNl : List Char → List (List Char)
  | [] => [[]]
  | c :: t =>
    if c = '\n' then [] :: splitOnNl t
    else
      match splitOnNl t with
      | [] => [[c]]
      | l :: ls => (c :: l) :: ls

/-- ASCII model of Python `str.strip()` whitespace. -/
def isPyWs (c : Char) : Bool :=
  c == ' ' || c == '\t' || c == '\n' || c == '\r' || c == '\x0b' || c == '\x0c'

/-- Python `s.strip()` (ASCII whitespace). -/
def pyStrip (l : List Char) : List Char :=
  ((l.dropWhile isPyWs).reverse.dropWhile isPyWs).reverse

/-- Python `s.strip(chr)`: drop every leading and trailing occurrence of a
single character. -/
def pyStripChar (ch : Char) (l : List Char) : List Char :=
  ((l.dropWhile (· == ch)).reverse.dropWhile (· == ch)).reverse

/-- Python `line.split(":", 1)[1]` for a line known to contain a colon. -/
def afterFirstColon (l : List Char) : List Char :=
  match splitFirst l (toL ":") with
  | some (_, r) => r
  | none => []

/-! ### The bridge's literal tokens (speckit_system_bridge.py) -/

def actorTok : List Char := toL "--actor \"windsurf\""
def actorAntigravity : List Char := toL "--actor \"antigravity\""
def actorClaude : List Char := toL "--actor \"claude\""
def actorGemini : List Char := toL "--actor \"gemini\""
def actorCopilot : List Char := toL "--actor \"copilot\""
def missingTok : List Char := toL "(Missing script command for sh)"
def specKittyRep : List Char := toL "spec-kitty"
def argsTok : List Char := toL "$ARGUMENTS"
def argsRep : List Char := toL "\x7b\x7bargs\x7d\x7d"

/-! ### Per-target workflow content transformations -/

/-- sync_antigravity (speckit_system_bridge.py lines 119-120): actor swap
then legacy-fragment swap. -/
def antigravity_workflow (content : List Char) : List Char :=
  replaceAll (replaceAll content actorTok actorAntigravity) missingTok specKittyRep

/-- sync_claude (lines 142-143). -/
def claude_workflow (text : List Char) : List Char :=
  replaceAll (replaceAll text actorTok actorClaude) missingTok specKittyRep

/-- sync_copilot (lines 217-218). -/
def copilot_workflow (text : List Char) : List Char :=
  replaceAll (replaceAll text actorTok actorCopilot) missingTok specKittyRep

/-- sync_gemini body transformation (lines 181-183): actor swap,
`$ARGUMENTS` placeholder swap, then legacy-fragment swap. -/
def gemini_fixed_text (text : List Char) : List Char :=
  replaceAll (replaceAll (replaceAll text actorTok actorGemini) argsTok argsRep)
    missingTok specKittyRep

/-- sync_gemini stem derivation (line 168): `filename.replace(".md", "")` —
note this removes every occurrence of `".md"`, not just a final extension. -/
def gemini_stem (filename : List Char) : List Char :=
  replaceAll filename (toL ".md") []

/-- sync_gemini description extraction (lines 170-178): default
`"Executes <stem>"`, overridden by the first `description:` line found in
the front-matter block delimited by a leading `---` and the next `---`. -/
def gemini_description (text stem : List Char) : List Char :=
  let dflt := toL "Executes " ++ stem
  if (toL "---") <+: text then
    match findFrom text (toL "---") 3 with
    | none => dflt
    | some e =>
      let fm := (text.take e).drop 3
      match (splitOnNl fm).find? (fun line => (toL "description:").isPrefixOf line) with
      | some line => pyStripChar '\"' (pyStrip (afterFirstColon line))
      | none => dflt
  else dflt

/-- sync_gemini TOML assembly (lines 180-185): the description is
quote-escaped and embedded, the transformed body is embedded as a raw
multi-line string. -/
def gemini_toml (filename text : List Char) : List Char :=
  toL "description = \"" ++
    (replaceAll (gemini_description text (gemini_stem filename)) (toL "\"") (toL "\\\"") ++
      (toL "\"\n\nprompt = \"\"\"\n" ++ (gemini_fixed_text text ++ toL "\n\"\"\"\n")))

/-- The four projection targets of the bridge. -/
inductive Target
  | antigravity
  | claude
  | gemini
  | copilot
deriving DecidableEq

/-- The workflow artifact content each target projector writes for a source
workflow (filename, body). -/
def workflow_artifact : Target → List Char → List Char → List Char
  | Target.antigravity, _, text => antigravity_workflow text
  | Target.claude, _, text => claude_workflow text
  | Target.gemini, filename, text => gemini_toml filename text
  | Target.copilot, _, text => copilot_workflow text

/-- Each target's substituted actor form. -/
def actor_form : Target → List Char
  | Target.antigravity => actorAntigravity
  | Target.claude => actorClaude
  | Target.gemini => actorGemini
  | Target.copilot => actorCopilot

/-! ### Infixes of concatenations -/

theorem not_infix_of_longer {q u : List Char} (h : u.length < q.length) : ¬ q <:+: u :=
  fun hq => absurd hq.length_le (by omega)

/-- An infix of `u ++ v` lies in `u`, lies in `v`, or spans the junction. -/
theorem infix_append_split {q u v : List Char} (h : q <:+: u ++ v) :
    q <:+: u ∨ q <:+: v ∨
      ∃ q1 q2, q = q1 ++ q2 ∧ q1 ≠ [] ∧ q2 ≠ [] ∧ q1 <:+ u ∧ q2 <+: v := by
  obtain ⟨a, b, heq⟩ := h
  rw [List.append_assoc] at heq
  rcases List.append_eq_append_iff.mp heq with ⟨a2, hu, hqb⟩ | ⟨c2, _, hv⟩
  · rcases List.append_eq_append_iff.mp hqb with ⟨p2, ha2, _⟩ | ⟨q2, hqa, hvb⟩
    · left
      rw [hu, ha2]
      exact infixAppR a (infixAppL p2 List.infix_rfl)
    · by_cases ha2nil : a2 = []
      · subst ha2nil
        simp only [List.nil_append] at hqa
        right; left
        rw [hvb, ← hqa]
        exact infixAppL b List.infix_rfl
      · by_cases hq2nil : q2 = []
        · subst hq2nil
          rw [List.append_nil] at hqa
          left
          rw [hu, hqa]
          exact (List.suffix_append a a2).isInfix
        · right; right
          refine ⟨a2, q2, hqa, ha2nil, hq2nil, ?_, ?_⟩
          · rw [hu]; exact List.suffix_append a a2
          · rw [hvb]; exact List.prefix_append q2 b
  · right; left
    rw [hv]
    exact infixAppR c2 (infixAppL b List.infix_rfl)

theorem head_of_pref {p v : List Char} (h : p <+: v) (hne : p ≠ []) :
    p.head? = v.head? := by
  obtain ⟨r, hr⟩ := h
  match p, hne with
  | c :: t, _ => rw [← hr]; rfl

theorem head_mem {p : List Char} {c : Char} (h : p.head? = some c) : c ∈ p := by
  match p with
  | [] => simp at h
  | d :: t =>
    simp only [List.head?_cons, Option.some.injEq] at h
    subst h
    exact List.mem_cons_self d t

/-- Reorder a bounded-quantifier fact into the hypothesis shape used by the
`replaceAll` lemmas. -/
theorem ballAdapter {n : Nat} {P : Nat → Prop} (h : ∀ j, j < n → (0 < j → P j)) :
    ∀ j, 0 < j → j < n → P j := fun j h0 hj => h j hj h0

/-! ### The quote-escaping invariant of the Gemini description -/

/-- In `d.replace('"', '\\"')` every double quote is immediately preceded by
a backslash. -/
theorem escaped_quotes (d : List Char) :
    ∀ a b, replaceAll d (toL "\"") (toL "\\\"") = a ++ '\"' :: b →
      ∃ a2, a = a2 ++ ['\\'] := by
  induction d with
  | nil =>
    intro a b h
    rw [replaceAll_nil] at h
    exact absurd h.symm (by simp)
  | cons c t ih =>
    intro a b h
    by_cases hc : c = '\"'
    · subst hc
      rw [@replaceAll_cons_pos (toL "\"") (toL "\\\"") '\"' t (by decide)
        (List.cons_prefix_cons.mpr ⟨rfl, List.nil_prefix⟩)] at h
      have hred : (toL "\\\"") ++ replaceAll (('\"' :: t).drop (toL "\"").length) (toL "\"") (toL "\\\"")
          = '\\' :: '\"' :: replaceAll t (toL "\"") (toL "\\\"") := rfl
      rw [hred] at h
      match a, h with
      | [], h => simp at h
      | [x], h =>
        simp only [List.cons_append, List.nil_append, List.cons.injEq] at h
        exact ⟨[], by rw [← h.1]; rfl⟩
      | x :: y :: a3, h =>
        simp only [List.cons_append, List.cons.injEq] at h
        obtain ⟨a4, ha4⟩ := ih a3 b h.2.2
        refine ⟨x :: y :: a4, ?_⟩
        rw [ha4]
        rfl
    · have hnp : ¬ ((toL "\"") ≠ [] ∧ (toL "\"") <+: (c :: t)) := by
        rintro ⟨_, hpre⟩
        rcases List.cons_prefix_cons.mp hpre with ⟨h1, _⟩
        exact hc h1.symm
      rw [replaceAll_cons_neg (toL "\\\"") hnp] at h
      match a, h with
      | [], h =>
        simp only [List.nil_append, List.cons.injEq] at h
        exact absurd h.1 hc
      | x :: a2, h =>
        simp only [List.cons_append, List.cons.injEq] at h
        obtain ⟨a4, ha4⟩ := ih a2 b h.2
        exact ⟨x :: a4, by rw [ha4]; rfl⟩

/-- The escaped description never contains a quote preceded by a space. -/
theorem no_space_quote_in_escaped (d : List Char) :
    ∀ a b, replaceAll d (toL "\"") (toL "\\\"") = a ++ [' ', '\"'] ++ b → False := by
  intro a b h
  have h2 : replaceAll d (toL "\"") (toL "\\\"") = (a ++ [' ']) ++ '\"' :: b := by
    rw [h]; simp
  obtain ⟨a2, ha2⟩ := escaped_quotes d (a ++ [' ']) b h2
  have h3 : (a ++ [' ']).getLast? = some ' ' := by simp
  rw [ha2] at h3
  simp only [List.getLast?_append, List.getLast?_singleton, Option.or_some] at h3
  exact absurd h3 (by decide)

/-! ### Actor substitution facts, per target -/

theorem anti_no_tok (text : List Char) : ¬ actorTok <:+: antigravity_workflow text := by
  intro h
  have h1 := replaceAll_no_new actorTok missingTok specKittyRep (by decide) (by decide)
    (by decide) (ballAdapter (by decide)) (by decide) (by decide) _ h
  exact replaceAll_kills actorTok actorAntigravity (by decide) (by decide)
    (ballAdapter (by decide)) (by decide) (by decide) text h1

theorem anti_contains {text : List Char} (h : actorTok <:+: text) :
    actorAntigravity <:+: antigravity_workflow text := by
  have h1 := replaceAll_inserts actorTok actorAntigravity (by decide) text h
  exact replaceAll_preserves actorAntigravity missingTok specKittyRep (by decide)
    (by decide) (by decide) (ballAdapter (by decide)) (ballAdapter (by decide)) _ h1

theorem claude_no_tok (text : List Char) : ¬ actorTok <:+: claude_workflow text := by
  intro h
  have h1 := replaceAll_no_new actorTok missingTok specKittyRep (by decide) (by decide)
    (by decide) (ballAdapter (by decide)) (by decide) (by decide) _ h
  exact replaceAll_kills actorTok actorClaude (by decide) (by decide)
    (ballAdapter (by decide)) (by decide) (by decide) text h1

theorem claude_contains {text : List Char} (h : actorTok <:+: text) :
    actorClaude <:+: claude_workflow text := by
  have h1 := replaceAll_inserts actorTok actorClaude (by decide) text h
  exact replaceAll_preserves actorClaude missingTok specKittyRep (by decide)
    (by decide) (by decide) (ballAdapter (by decide)) (ballAdapter (by decide)) _ h1

theorem copilot_no_tok (text : List Char) : ¬ actorTok <:+: copilot_workflow text := by
  intro h
  have h1 := replaceAll_no_new actorTok missingTok specKittyRep (by decide) (by decide)
    (by decide) (ballAdapter (by decide)) (by decide) (by decide) _ h
  exact replaceAll_kills actorTok actorCopilot (by decide) (by decide)
    (ballAdapter (by decide)) (by decide) (by decide) text h1

theorem copilot_contains {text : List Char} (h : actorTok <:+: text) :
    actorCopilot <:+: copilot_workflow text := by
  have h1 := replaceAll_inserts actorTok actorCopilot (by decide) text h
  exact replaceAll_preserves actorCopilot missingTok specKittyRep (by decide)
    (by decide) (by decide) (ballAdapter (by decide)) (ballAdapter (by decide)) _ h1

theorem gemini_body_no_tok (text : List Char) : ¬ actorTok <:+: gemini_fixed_text text := by
  intro h
  have h1 := replaceAll_no_new actorTok missingTok specKittyRep (by decide) (by decide)
    (by decide) (ballAdapter (by decide)) (by decide) (by decide) _ h
  have h2 := replaceAll_no_new actorTok argsTok argsRep (by decide) (by decide)
    (by decide) (ballAdapter (by decide)) (by decide) (by decide) _ h1
  exact replaceAll_kills actorTok actorGemini (by decide) (by decide)
    (ballAdapter (by decide)) (by decide) (by decide) text h2

theorem gemini_body_contains {text : List Char} (h : actorTok <:+: text) :
    actorGemini <:+: gemini_fixed_text text := by
  have h1 := replaceAll_inserts actorTok actorGemini (by decide) text h
  have h2 := replaceAll_preserves actorGemini argsTok argsRep (by decide)
    (by decide) (by decide) (ballAdapter (by decide)) (ballAdapter (by decide)) _ h1
  exact replaceAll_preserves actorGemini missingTok specKittyRep (by decide)
    (by decide) (by decide) (ballAdapter (by decide)) (ballAdapter (by decide)) _ h2

/-- The full Gemini TOML artifact never contains the generic actor token:
not in the template, not in the escaped description, not in the transformed
body, and not spanning any junction. -/
theorem gemini_no_tok (filename text : List Char) :
    ¬ actorTok <:+: gemini_toml filename text := by
  intro h
  rw [gemini_toml] at h
  rcases infix_append_split h with h1 | h
  · exact not_infix_of_longer (by decide) h1
  rcases h with h | h
  swap
  · -- span at the first junction: '-' would have to occur in the template head
    obtain ⟨q1, q2, hq, hq1ne, _, hq1suf, _⟩ := h
    have hq1p : q1 <+: actorTok := by rw [hq]; exact List.prefix_append q1 q2
    have hh : q1.head? = some '-' := by rw [head_of_pref hq1p hq1ne]; decide
    exact absurd (hq1suf.subset (head_mem hh)) (by decide)
  rcases infix_append_split h with h1 | h
  · -- inside the escaped description: impossible, a quote would follow a space
    obtain ⟨x, y, hx⟩ := h1
    refine no_space_quote_in_escaped (gemini_description text (gemini_stem filename))
      (x ++ toL "--actor") (toL "windsurf\"" ++ y) ?_
    rw [← hx]
    have hsplit : actorTok = toL "--actor" ++ [' ', '\"'] ++ toL "windsurf\"" := by decide
    rw [hsplit]
    simp only [List.append_assoc]
  rcases h with h | h
  swap
  · -- span out of the escaped description
    obtain ⟨q1, q2, hq, hq1ne, hq2ne, hq1suf, hq2pre⟩ := h
    have hq2d : actorTok.drop q1.length = q2 := by rw [hq, List.drop_left]
    have hq1t : actorTok.take q1.length = q1 := by rw [hq, List.take_left]
    have hlt : q1.length < actorTok.length := by
      have hlq := congrArg List.length hq
      rw [List.length_append] at hlq
      have : 0 < q2.length := List.length_pos.mpr hq2ne
      omega
    have hhead : q2.head? = some '\"' := by
      rw [head_of_pref hq2pre hq2ne]
      rfl
    rcases (by decide :
        ∀ j, j < actorTok.length → ((actorTok.drop j).head? = some '\"' → j = 8 ∨ j = 17))
        q1.length hlt (by rw [hq2d]; exact hhead) with hj | hj
    · -- q2 = "windsurf" with the closing quote: second char clashes with '\n'
      have hq2v : q2 = toL "\"windsurf\"" := by rw [← hq2d, hj]; decide
      obtain ⟨r, hr⟩ := hq2pre
      have h2a : (q2 ++ r)[1]? = some 'w' := by rw [hq2v]; rfl
      rw [hr] at h2a
      have h2b : ((toL "\"\n\nprompt = \"\"\"\n") ++
          (gemini_fixed_text text ++ toL "\n\"\"\"\n"))[1]? = some '\n' := rfl
      rw [h2b] at h2a
      exact absurd h2a (by decide)
    · -- q1 = the first 17 characters: the escaped description would end in ` "windsurf`
      obtain ⟨z, hz⟩ := hq1suf
      refine no_space_quote_in_escaped (gemini_description text (gemini_stem filename))
        (z ++ toL "--actor") (toL "windsurf") ?_
      rw [← hz, ← hq1t, hj]
      have hsplit : actorTok.take 17 = toL "--actor" ++ [' ', '\"'] ++ toL "windsurf" := by
        decide
      rw [hsplit]
      simp only [List.append_assoc]
  rcases infix_append_split h with h1 | h
  · exact not_infix_of_longer (by decide) h1
  rcases h with h | h
  swap
  · obtain ⟨q1, q2, hq, hq1ne, _, hq1suf, _⟩ := h
    have hq1p : q1 <+: actorTok := by rw [hq]; exact List.prefix_append q1 q2
    have hh : q1.head? = some '-' := by rw [head_of_pref hq1p hq1ne]; decide
    exact absurd (hq1suf.subset (head_mem hh)) (by decide)
  rcases infix_append_split h with h1 | h
  · exact gemini_body_no_tok text h1
  rcases h with h | h
  · exact not_infix_of_longer (by decide) h
  · -- span into the closing template: the token has no newline
    obtain ⟨q1, q2, hq, _, hq2ne, _, hq2pre⟩ := h
    have hq2d : actorTok.drop q1.length = q2 := by rw [hq, List.drop_left]
    have hlt : q1.length < actorTok.length := by
      have hlq := congrArg List.length hq
      rw [List.length_append] at hlq
      have : 0 < q2.length := List.length_pos.mpr hq2ne
      omega
    have hhead : q2.head? = some '\n' := by
      rw [head_of_pref hq2pre hq2ne]
      rfl
    exact absurd (by rw [hq2d]; exact hhead)
      ((by decide : ∀ j, j < actorTok.length → ¬ ((actorTok.drop j).head? = some '\n'))
        q1.length hlt)

/-- The Gemini TOML artifact contains the substituted actor form whenever the
source body contains the generic token. -/
theorem gemini_contains {filename text : List Char} (h : actorTok <:+: text) :
    actorGemini <:+: gemini_toml filename text := by
  rw [gemini_toml]
  exact infixAppR _ (infixAppR _ (infixAppR _ (infixAppL _ (gemini_body_contains h))))

/-! ### Counting occurrences -/

/-- Number of positions at which `pat` occurs in `l`. -/
def countOcc (l pat : List Char) : Nat :=
  match l with
  | [] => 0
  | c :: t => (if pat <+: (c :: t) then 1 else 0) + countOcc t pat

theorem countOcc_nil (pat : List Char) : countOcc [] pat = 0 := rfl

theorem countOcc_cons (c : Char) (t pat : List Char) :
    countOcc (c :: t) pat = (if pat <+: (c :: t) then 1 else 0) + countOcc t pat := rfl

/-- The side condition under which occurrence counting distributes over an
append: no occurrence of `pat` spans the junction. -/
def NoSpan (pat a b : List Char) : Prop :=
  ∀ p1 p2, pat = p1 ++ p2 → p1 ≠ [] → p2 ≠ [] → ¬ (p1 <:+ a ∧ p2 <+: b)

theorem countOcc_append (pat : List Char) :
    ∀ a b, NoSpan pat a b → countOcc (a ++ b) pat = countOcc a pat + countOcc b pat := by
  intro a
  induction a with
  | nil => intro b _; simp [countOcc_nil]
  | cons c a2 ih =>
    intro b hns
    have hns2 : NoSpan pat a2 b := by
      intro p1 p2 hp h1 h2 hmem
      exact hns p1 p2 hp h1 h2 ⟨hmem.1.trans (List.suffix_cons c a2), hmem.2⟩
    have hiff : (pat <+: c :: (a2 ++ b)) ↔ (pat <+: c :: a2) := by
      constructor
      · intro h
        have hfull : (c :: a2) <+: c :: (a2 ++ b) := by
          rw [← List.cons_append]
          exact List.prefix_append (c :: a2) b
        rcases List.prefix_or_prefix_of_prefix h hfull with hh | hh
        · exact hh
        · obtain ⟨p2, hp2⟩ := hh
          by_cases hp2nil : p2 = []
          · subst hp2nil
            rw [List.append_nil] at hp2
            rw [← hp2]
          · have hp2b : p2 <+: b := by
              have h3 : (c :: a2) ++ p2 <+: (c :: a2) ++ b := by
                rw [hp2, List.cons_append]
                exact h
              exact (List.prefix_append_right_inj (c :: a2)).mp h3
            exact absurd ⟨List.suffix_rfl, hp2b⟩
              (hns (c :: a2) p2 hp2.symm (by simp) hp2nil)
      · intro h
        have : (c :: a2) <+: c :: (a2 ++ b) := by
          rw [← List.cons_append]
          exact List.prefix_append (c :: a2) b
        exact h.trans this
    rw [List.cons_append, countOcc_cons, countOcc_cons, ih b hns2,
      if_congr hiff rfl rfl]
    omega

theorem countOcc_eq_zero {l pat : List Char} (hne : pat ≠ []) :
    countOcc l pat = 0 ↔ ¬ pat <:+: l := by
  induction l with
  | nil =>
    simp only [countOcc_nil, List.infix_nil]
    exact ⟨fun _ h => hne h, fun _ => trivial⟩
  | cons c t ih =>
    rw [countOcc_cons, List.infix_cons_iff]
    by_cases hp : pat <+: (c :: t)
    · simp [hp]
    · simp only [if_neg hp, Nat.zero_add, ih]
      constructor
      · rintro h (h1 | h1)
        · exact hp h1
        · exact h h1
      · intro h h1
        exact h (Or.inr h1)

theorem countOcc_pos {l pat : List Char} (hne : pat ≠ []) (h : pat <:+: l) :
    1 ≤ countOcc l pat := by
  by_contra hc
  have h0 : countOcc l pat = 0 := by omega
  exact (countOcc_eq_zero hne).mp h0 h

/-- An occurrence of `pat` starting at position `i` of `l`. -/
theorem countOcc_one_of_occ {l pat : List Char} (hne : pat ≠ []) :
    ∀ i, pat <+: l.drop i → 1 ≤ countOcc l pat := by
  induction l with
  | nil =>
    intro i h
    rw [List.drop_nil] at h
    exact absurd (List.prefix_nil.mp h) hne
  | cons c t ih =>
    intro i h
    match i with
    | 0 =>
      rw [List.drop_zero] at h
      rw [countOcc_cons, if_pos h]
      omega
    | Nat.succ j =>
      have h2 := ih j (by simpa using h)
      rw [countOcc_cons]
      omega

/-- Two distinct occurrence positions force a count of at least two. -/
theorem countOcc_two_of_occ {l pat : List Char} (hne : pat ≠ []) :
    ∀ i j, i < j → pat <+: l.drop i → pat <+: l.drop j → 2 ≤ countOcc l pat := by
  induction l with
  | nil =>
    intro i j _ hi _
    rw [List.drop_nil] at hi
    exact absurd (List.prefix_nil.mp hi) hne
  | cons c t ih =>
    intro i j hij hi hj
    match i with
    | 0 =>
      rw [List.drop_zero] at hi
      match j, hij with
      | Nat.succ j2, _ =>
        have h2 := countOcc_one_of_occ hne j2 (by simpa using hj)
        rw [countOcc_cons, if_pos hi]
        omega
    | Nat.succ i2 =>
      match j, hij with
      | Nat.succ j2, hij =>
        have h2 := ih i2 j2 (by omega) (by simpa using hi) (by simpa using hj)
        rw [countOcc_cons]
        omega

/-! ### Characterizing `splitFirst` -/

theorem splitFirst_some {l pat a r : List Char} (h : splitFirst l pat = some (a, r)) :
    l = a ++ (pat ++ r) := by
  induction l generalizing a r with
  | nil =>
    rw [splitFirst] at h
    by_cases hp : pat = []
    · rw [if_pos hp] at h
      simp only [Option.some.injEq, Prod.mk.injEq] at h
      rw [← h.1, ← h.2, hp]
      rfl
    · rw [if_neg hp] at h
      exact absurd h (by simp)
  | cons c t ih =>
    rw [splitFirst] at h
    by_cases hp : pat <+: (c :: t)
    · rw [if_pos hp] at h
      simp only [Option.some.injEq, Prod.mk.injEq] at h
      obtain ⟨s2, hs2⟩ := hp
      have hdrop : (c :: t).drop pat.length = s2 := by rw [← hs2, List.drop_left]
      rw [← h.1, ← h.2, hdrop, List.nil_append]
      exact hs2.symm
    · rw [if_neg hp] at h
      cases hsf : splitFirst t pat with
      | none => rw [hsf] at h; exact absurd h (by simp)
      | some p =>
        obtain ⟨a2, r2⟩ := p
        rw [hsf] at h
        simp only [Option.some.injEq, Prod.mk.injEq] at h
        rw [← h.1, ← h.2]
        have := ih (a := a2) (r := r2) hsf
        rw [List.cons_append, ← this]

theorem splitFirst_first {l pat a r : List Char} (h : splitFirst l pat = some (a, r)) :
    ∀ j, j < a.length → ¬ pat <+: l.drop j := by
  induction l generalizing a r with
  | nil =>
    rw [splitFirst] at h
    by_cases hp : pat = []
    · rw [if_pos hp] at h
      simp only [Option.some.injEq, Prod.mk.injEq] at h
      intro j hj
      rw [← h.1] at hj
      simp at hj
    · rw [if_neg hp] at h
      exact absurd h (by simp)
  | cons c t ih =>
    rw [splitFirst] at h
    by_cases hp : pat <+: (c :: t)
    · rw [if_pos hp] at h
      simp only [Option.some.injEq, Prod.mk.injEq] at h
      intro j hj
      rw [← h.1] at hj
      simp at hj
    · rw [if_neg hp] at h
      cases hsf : splitFirst t pat with
      | none => rw [hsf] at h; exact absurd h (by simp)
      | some p =>
        obtain ⟨a2, r2⟩ := p
        rw [hsf] at h
        simp only [Option.some.injEq, Prod.mk.injEq] at h
        intro j hj
        match j with
        | 0 =>
          rw [List.drop_zero]
          exact hp
        | Nat.succ j2 =>
          rw [← h.1] at hj
          simp only [List.length_cons, Nat.succ_lt_succ_iff] at hj
          simpa using ih (a := a2) (r := r2) hsf j2 hj

theorem splitFirst_none_iff {l pat : List Char} :
    splitFirst l pat = none ↔ ¬ pat <:+: l := by
  induction l with
  | nil =>
    rw [splitFirst]
    by_cases hp : pat = []
    · rw [if_pos hp]
      subst hp
      simp
    · rw [if_neg hp]
      simp only [List.infix_nil]
      exact ⟨fun _ h => hp h, fun _ => trivial⟩
  | cons c t ih =>
    rw [splitFirst]
    by_cases hp : pat <+: (c :: t)
    · rw [if_pos hp]
      constructor
      · intro h; exact absurd h (by simp)
      · intro h; exact absurd hp.isInfix h
    · rw [if_neg hp]
      cases hsf : splitFirst t pat with
      | none =>
        simp only [true_iff]
        rw [List.infix_cons_iff]
        rintro (h1 | h1)
        · exact hp h1
        · exact ih.mp hsf h1
      | some p =>
        obtain ⟨a2, r2⟩ := p
        constructor
        · intro h; exact absurd h (by simp)
        · intro h
          have h2 : pat <:+: t := by
            by_contra h3
            rw [ih.mpr h3] at hsf
            exact absurd hsf (by simp)
          exact absurd (List.infix_cons h2) h

/-- The defining property in reverse: a first occurrence determines the
result of `splitFirst`. -/
theorem splitFirst_eq_of {pat : List Char} :
    ∀ x l y, l = x ++ (pat ++ y) → (∀ j, j < x.length → ¬ pat <+: l.drop j) →
      splitFirst l pat = some (x, y) := by
  intro x
  induction x with
  | nil =>
    intro l y hl _
    simp only [List.nil_append] at hl
    subst hl
    match pat with
    | [] =>
      simp only [List.nil_append]
      match y with
      | [] => rw [splitFirst]; simp
      | c :: t => rw [splitFirst, if_pos List.nil_prefix]; simp
    | p :: pt =>
      rw [List.cons_append, splitFirst,
        if_pos (show p :: pt <+: p :: (pt ++ y) by
          rw [← List.cons_append]; exact List.prefix_append (p :: pt) y)]
      simp only [Option.some.injEq, Prod.mk.injEq, true_and]
      rw [← List.cons_append, List.drop_left]
  | cons c x2 ih =>
    intro l y hl hfirst
    subst hl
    rw [List.cons_append, splitFirst]
    have h0 : ¬ pat <+: c :: (x2 ++ (pat ++ y)) := by
      have := hfirst 0 (by simp)
      simpa using this
    rw [if_neg h0]
    have h2 := ih (x2 ++ (pat ++ y)) y rfl (by
      intro j hj
      have := hfirst (j + 1) (by simp; omega)
      simpa using this)
    rw [h2]

/-! ### Junction lemmas used to discharge `NoSpan` side conditions -/

theorem nospan_into_marker (pat mk u w : List Char)
    (hj : ∀ j, j < pat.length → (0 < j → ¬ (pat.drop j <+: mk)))
    (hk : ∀ j, j < pat.length → (0 < j → ¬ (mk <+: pat.drop j))) :
    NoSpan pat u (mk ++ w) := by
  rintro p1 p2 hp h1 h2 ⟨_, hpre⟩
  have hd : pat.drop p1.length = p2 := by rw [hp, List.drop_left]
  have hlen := congrArg List.length hp
  rw [List.length_append] at hlen
  have hlt : p1.length < pat.length := by
    have : 0 < p2.length := List.length_pos.mpr h2
    omega
  have h0 : 0 < p1.length := List.length_pos.mpr h1
  rcases List.prefix_or_prefix_of_prefix hpre (List.prefix_append mk w) with hh | hh
  · exact hj p1.length hlt h0 (by rw [hd]; exact hh)
  · exact hk p1.length hlt h0 (by rw [hd]; exact hh)

theorem nospan_of_head (pat v : List Char) (ch : Char) (hvh : v.head? = some ch)
    (hch : ∀ j, j < pat.length → (0 < j → ¬ ((pat.drop j).head? = some ch)))
    (u : List Char) : NoSpan pat u v := by
  rintro p1 p2 hp h1 h2 ⟨_, hpre⟩
  have hd : pat.drop p1.length = p2 := by rw [hp, List.drop_left]
  have hlen := congrArg List.length hp
  rw [List.length_append] at hlen
  have hlt : p1.length < pat.length := by
    have : 0 < p2.length := List.length_pos.mpr h2
    omega
  have h0 : 0 < p1.length := List.length_pos.mpr h1
  refine hch p1.length hlt h0 ?_
  rw [hd, head_of_pref hpre h2, hvh]

theorem nospan_of_mem (pat u : List Char) (ch : Char) (hph : pat.head? = some ch)
    (hchu : ch ∉ u) (v : List Char) : NoSpan pat u v := by
  rintro p1 p2 hp h1 _ ⟨hsuf, _⟩
  have hp1 : p1 <+: pat := by rw [hp]; exact List.prefix_append p1 p2
  have hh : p1.head? = some ch := by rw [head_of_pref hp1 h1, hph]
  exact hchu (hsuf.subset (head_mem hh))

theorem nospan_of_takes (pat u : List Char)
    (h : ∀ j, j < pat.length → (0 < j → ¬ (pat.take j <:+ u))) (v : List Char) :
    NoSpan pat u v := by
  rintro p1 p2 hp h1 h2 ⟨hsuf, _⟩
  have ht : pat.take p1.length = p1 := by rw [hp, List.take_left]
  have hlen := congrArg List.length hp
  rw [List.length_append] at hlen
  have hlt : p1.length < pat.length := by
    have : 0 < p2.length := List.length_pos.mpr h2
    omega
  have h0 : 0 < p1.length := List.length_pos.mpr h1
  refine h p1.length hlt h0 ?_
  rw [ht]
  exact hsuf

theorem head_append_of {l : List Char} (w : List Char) {ch : Char}
    (h : l.head? = some ch) : (l ++ w).head? = some ch := by
  match l, h with
  | c :: t, h => simpa using h

/-! ### The marker-block update of sync_rules.py and sync_skills.py -/

/-- The injected block
`f"{MARKER_START}\n# SHARED ...\n{new_content}\n{MARKER_END}"`. -/
def injBlock (ms me hdr content : List Char) : List Char :=
  ms ++ (hdr ++ (content ++ (toL "\n" ++ me)))

/-- Python `orig.split(pat)[0]`: the part before the first occurrence. -/
def preOf (orig pat : List Char) : List Char :=
  match splitFirst orig pat with
  | some (a, _) => a
  | none => []

/-- `update_file(target, content)` of sync_rules.py lines 54-76 and
sync_skills.py lines 49-71 (identical code, marker and header literals
differ): when both markers occur, splice `split(MARKER_START)[0]`, the new
block, and `split(MARKER_END)[1]`; otherwise append `"\n\n"` and the block. -/
def update_file (ms me hdr orig content : List Char) : List Char :=
  if containsB orig ms ∧ containsB orig me then
    preOf orig ms ++ (injBlock ms me hdr content ++ pySplitAt1 orig me)
  else
    orig ++ (toL "\n\n" ++ injBlock ms me hdr content)

def rulesStart : List Char := toL "<!-- RULES_SYNC_START -->"
def rulesEnd : List Char := toL "<!-- RULES_SYNC_END -->"
def rulesHeader : List Char := toL "\n# SHARED RULES FROM .agent/rules/\n"
def skillsStart : List Char := toL "<!-- SKILLS_SYNC_START -->"
def skillsEnd : List Char := toL "<!-- SKILLS_SYNC_END -->"
def skillsHeader : List Char := toL "\n# SHARED SKILLS FROM .agent/skills/\n"

/-- sync_rules.py update_file. -/
def rules_update_file (orig content : List Char) : List Char :=
  update_file rulesStart rulesEnd rulesHeader orig content

/-- sync_skills.py update_file. -/
def skills_update_file (orig content : List Char) : List Char :=
  update_file skillsStart skillsEnd skillsHeader orig content

theorem containsB_iff {l pat : List Char} : containsB l pat = true ↔ pat <:+: l := by
  rw [containsB]
  cases hsf : splitFirst l pat with
  | none =>
    simp only [Option.isSome_none, Bool.false_eq_true, false_iff]
    exact splitFirst_none_iff.mp hsf
  | some p =>
    obtain ⟨a, r⟩ := p
    simp only [Option.isSome_some, true_iff]
    have := splitFirst_some hsf
    exact ⟨a, r, by rw [List.append_assoc, ← this]⟩

/-- The geometric facts about a marker pair and header that the marker-update
proofs need; all fields are decidable and hold for both the RULES and the
SKILLS markers. -/
structure MarkerSpec (ms me hdr : List Char) : Prop where
  msNe : ms ≠ []
  meNe : me ≠ []
  msDropMs : ∀ j, j < ms.length → (0 < j → ¬ (ms.drop j <+: ms))
  msSelfDrop : ∀ j, j < ms.length → (0 < j → ¬ (ms <+: ms.drop j))
  meDropMe : ∀ j, j < me.length → (0 < j → ¬ (me.drop j <+: me))
  meSelfDrop : ∀ j, j < me.length → (0 < j → ¬ (me <+: me.drop j))
  msDropInMe : ∀ j, j < ms.length → (0 < j → ¬ (ms.drop j <+: me))
  mePrefMsDrop : ∀ j, j < ms.length → (0 < j → ¬ (me <+: ms.drop j))
  meDropInMs : ∀ j, j < me.length → (0 < j → ¬ (me.drop j <+: ms))
  msPrefMeDrop : ∀ j, j < me.length → (0 < j → ¬ (ms <+: me.drop j))
  msTakeMs : ∀ j, j < ms.length → (0 < j → ¬ (ms.take j <:+ ms))
  msTakeMe : ∀ j, j < ms.length → (0 < j → ¬ (ms.take j <:+ me))
  meTakeMe : ∀ j, j < me.length → (0 < j → ¬ (me.take j <:+ me))
  meTakeMs : ∀ j, j < me.length → (0 < j → ¬ (me.take j <:+ ms))
  msHead : ms.head? = some '<'
  meHead : me.head? = some '<'
  hdrNoLt : '<' ∉ hdr
  msNoNl : ∀ j, j < ms.length → (0 < j → ¬ ((ms.drop j).head? = some '\n'))
  meNoNl : ∀ j, j < me.length → (0 < j → ¬ ((me.drop j).head? = some '\n'))
  cMsMs : countOcc ms ms = 1
  cMeMe : countOcc me me = 1
  cMsInMe : countOcc me ms = 0
  cMeInMs : countOcc ms me = 0
  cHdrMs : countOcc hdr ms = 0
  cHdrMe : countOcc hdr me = 0
  cNlMs : countOcc (toL "\n") ms = 0
  cNlMe : countOcc (toL "\n") me = 0
  cNl2Ms : countOcc (toL "\n\n") ms = 0
  cNl2Me : countOcc (toL "\n\n") me = 0

/-- A target file is marker-well-formed: either no marker occurs at all, or
there is exactly one start marker followed by exactly one end marker. -/
def MarkerWF (ms me orig : List Char) : Prop :=
  (¬ ms <:+: orig ∧ ¬ me <:+: orig) ∨
  (∃ x m y, orig = x ++ (ms ++ (m ++ (me ++ y))) ∧
    countOcc orig ms = 1 ∧ countOcc orig me = 1)

/-- Each marker occurs exactly once in a spliced result whose open segments
are marker-free. -/
theorem result_counts (ms me hdr content x y : List Char) (hs : MarkerSpec ms me hdr)
    (hxms : countOcc x ms = 0) (hxme : countOcc x me = 0)
    (hcms : countOcc content ms = 0) (hcme : countOcc content me = 0)
    (hyms : countOcc y ms = 0) (hyme : countOcc y me = 0) :
    countOcc (x ++ (ms ++ (hdr ++ (content ++ (toL "\n" ++ (me ++ y)))))) ms = 1 ∧
    countOcc (x ++ (ms ++ (hdr ++ (content ++ (toL "\n" ++ (me ++ y)))))) me = 1 := by
  constructor
  · rw [countOcc_append ms x _ (nospan_into_marker ms ms x _ hs.msDropMs hs.msSelfDrop),
      countOcc_append ms ms _ (nospan_of_takes ms ms hs.msTakeMs _),
      countOcc_append ms hdr _ (nospan_of_mem ms hdr '<' hs.msHead hs.hdrNoLt _),
      countOcc_append ms content (toL "\n" ++ (me ++ y))
        (nospan_of_head ms (toL "\n" ++ (me ++ y)) '\n' rfl hs.msNoNl content),
      countOcc_append ms (toL "\n") _
        (nospan_of_mem ms (toL "\n") '<' hs.msHead (by decide) _),
      countOcc_append ms me y (nospan_of_takes ms me hs.msTakeMe y)]
    rw [hxms, hs.cMsMs, hs.cHdrMs, hcms, hs.cNlMs, hs.cMsInMe, hyms]
  · rw [countOcc_append me x _ (nospan_into_marker me ms x _ hs.meDropInMs hs.msPrefMeDrop),
      countOcc_append me ms _ (nospan_of_takes me ms hs.meTakeMs _),
      countOcc_append me hdr _ (nospan_of_mem me hdr '<' hs.meHead hs.hdrNoLt _),
      countOcc_append me content (toL "\n" ++ (me ++ y))
        (nospan_of_head me (toL "\n" ++ (me ++ y)) '\n' rfl hs.meNoNl content),
      countOcc_append me (toL "\n") _
        (nospan_of_mem me (toL "\n") '<' hs.meHead (by decide) _),
      countOcc_append me me y (nospan_of_takes me me hs.meTakeMe y)]
    rw [hxme, hs.cMeInMs, hs.cHdrMe, hcme, hs.cNlMe, hs.cMeMe, hyme]

/-- In a file containing exactly one ordered marker pair, the open segments
are marker-free. -/
theorem orig_counts (ms me hdr x m y : List Char) (hs : MarkerSpec ms me hdr)
    (h1 : countOcc (x ++ (ms ++ (m ++ (me ++ y)))) ms = 1)
    (h2 : countOcc (x ++ (ms ++ (m ++ (me ++ y)))) me = 1) :
    countOcc x ms = 0 ∧ countOcc m ms = 0 ∧ countOcc y ms = 0 ∧
    countOcc x me = 0 ∧ countOcc m me = 0 ∧ countOcc y me = 0 := by
  rw [countOcc_append ms x _ (nospan_into_marker ms ms x _ hs.msDropMs hs.msSelfDrop),
    countOcc_append ms ms _ (nospan_of_takes ms ms hs.msTakeMs _),
    countOcc_append ms m _ (nospan_into_marker ms me m _ hs.msDropInMe hs.mePrefMsDrop),
    countOcc_append ms me y (nospan_of_takes ms me hs.msTakeMe y),
    hs.cMsMs, hs.cMsInMe] at h1
  rw [countOcc_append me x _ (nospan_into_marker me ms x _ hs.meDropInMs hs.msPrefMeDrop),
    countOcc_append me ms _ (nospan_of_takes me ms hs.meTakeMs _),
    countOcc_append me m _ (nospan_into_marker me me m _ hs.meDropMe hs.meSelfDrop),
    countOcc_append me me y (nospan_of_takes me me hs.meTakeMe y),
    hs.cMeMe, hs.cMeInMs] at h2
  omega

theorem preOf_eq {l pat a r : List Char} (h1 : splitFirst l pat = some (a, r)) :
    preOf l pat = a := by
  unfold preOf
  rw [h1]

theorem pySplitAt1_eq {l pat a r : List Char} (h1 : splitFirst l pat = some (a, r))
    (h2 : splitFirst r pat = none) : pySplitAt1 l pat = r := by
  unfold pySplitAt1
  rw [h1]
  show (match splitFirst r pat with
    | some (a, _) => a
    | none => r) = r
  rw [h2]

/-- Normal form of `update_file` on a well-formed target with marker-free
content: the result is a single spliced block with marker-free surroundings,
and the branch taken is replacement (pre and post preserved) or append. -/
theorem update_file_normal (ms me hdr orig content : List Char)
    (hs : MarkerSpec ms me hdr) (hwf : MarkerWF ms me orig)
    (hcms : countOcc content ms = 0) (hcme : countOcc content me = 0) :
    ∃ a b, update_file ms me hdr orig content
        = a ++ (ms ++ (hdr ++ (content ++ (toL "\n" ++ (me ++ b))))) ∧
      countOcc (update_file ms me hdr orig content) ms = 1 ∧
      countOcc (update_file ms me hdr orig content) me = 1 ∧
      ((∃ m2, orig = a ++ (ms ++ (m2 ++ (me ++ b)))) ∨
        (¬ ms <:+: orig ∧ ¬ me <:+: orig ∧ a = orig ++ toL "\n\n" ∧ b = [])) := by
  rcases hwf with ⟨hnms, hnme⟩ | ⟨x, m, y, hdecomp, hc1, hc2⟩
  · have hcond : ¬ (containsB orig ms = true ∧ containsB orig me = true) := by
      rintro ⟨hb1, _⟩
      exact hnms (containsB_iff.mp hb1)
    have hres : update_file ms me hdr orig content
        = (orig ++ toL "\n\n") ++ (ms ++ (hdr ++ (content ++ (toL "\n" ++ (me ++ []))))) := by
      rw [update_file, if_neg hcond, injBlock]
      simp only [List.append_assoc, List.append_nil]
    have hx1 : countOcc (orig ++ toL "\n\n") ms = 0 := by
      rw [countOcc_append ms orig (toL "\n\n")
        (nospan_of_head ms (toL "\n\n") '\n' rfl hs.msNoNl orig),
        (countOcc_eq_zero hs.msNe).mpr hnms, hs.cNl2Ms]
    have hx2 : countOcc (orig ++ toL "\n\n") me = 0 := by
      rw [countOcc_append me orig (toL "\n\n")
        (nospan_of_head me (toL "\n\n") '\n' rfl hs.meNoNl orig),
        (countOcc_eq_zero hs.meNe).mpr hnme, hs.cNl2Me]
    obtain ⟨hcnt1, hcnt2⟩ := result_counts ms me hdr content (orig ++ toL "\n\n") [] hs
      hx1 hx2 hcms hcme rfl rfl
    exact ⟨orig ++ toL "\n\n", [], hres, by rw [hres]; exact hcnt1,
      by rw [hres]; exact hcnt2, Or.inr ⟨hnms, hnme, rfl, rfl⟩⟩
  · rw [hdecomp] at hc1 hc2
    obtain ⟨hxms, hmms, hyms, hxme, hmme, hyme⟩ := orig_counts ms me hdr x m y hs hc1 hc2
    have hoccS : ms <+: (x ++ (ms ++ (m ++ (me ++ y)))).drop x.length := by
      rw [List.drop_left]
      exact List.prefix_append ms _
    have hsfS : splitFirst orig ms = some (x, m ++ (me ++ y)) := by
      rw [hdecomp]
      refine splitFirst_eq_of x _ (m ++ (me ++ y)) rfl ?_
      intro j hj hpre
      have h2 := countOcc_two_of_occ hs.msNe j x.length hj hpre hoccS
      omega
    have hdecomp2 : orig = (x ++ (ms ++ m)) ++ (me ++ y) := by
      rw [hdecomp]; simp only [List.append_assoc]
    have hoccE : me <+: ((x ++ (ms ++ m)) ++ (me ++ y)).drop (x ++ (ms ++ m)).length := by
      rw [List.drop_left]
      exact List.prefix_append me y
    have hsfE : splitFirst orig me = some (x ++ (ms ++ m), y) := by
      rw [hdecomp2]
      refine splitFirst_eq_of (x ++ (ms ++ m)) _ y rfl ?_
      intro j hj hpre
      have h2 := countOcc_two_of_occ hs.meNe j (x ++ (ms ++ m)).length hj hpre hoccE
      rw [← hdecomp2, hdecomp] at h2
      omega
    have hnone : splitFirst y me = none :=
      splitFirst_none_iff.mpr ((countOcc_eq_zero hs.meNe).mp hyme)
    have hbS : containsB orig ms = true := by
      rw [containsB, hsfS]; rfl
    have hbE : containsB orig me = true := by
      rw [containsB, hsfE]; rfl
    have hres : update_file ms me hdr orig content
        = x ++ (ms ++ (hdr ++ (content ++ (toL "\n" ++ (me ++ y))))) := by
      rw [update_file, if_pos ⟨hbS, hbE⟩, preOf_eq hsfS, pySplitAt1_eq hsfE hnone, injBlock]
      simp only [List.append_assoc]
    obtain ⟨hcnt1, hcnt2⟩ := result_counts ms me hdr content x y hs
      hxms hxme hcms hcme hyms hyme
    exact ⟨x, y, hres, by rw [hres]; exact hcnt1, by rw [hres]; exact hcnt2,
      Or.inl ⟨m, hdecomp⟩⟩

/-- A word occurring exactly once splits its host uniquely. -/
theorem unique_marker_decomp {mk l x y x2 y2 : List Char} (hne : mk ≠ [])
    (hcount : countOcc l mk = 1)
    (h1 : l = x ++ (mk ++ y)) (h2 : l = x2 ++ (mk ++ y2)) : x = x2 ∧ y = y2 := by
  have o1 : mk <+: l.drop x.length := by
    rw [h1, List.drop_left]; exact List.prefix_append mk y
  have o2 : mk <+: l.drop x2.length := by
    rw [h2, List.drop_left]; exact List.prefix_append mk y2
  have hxx : x.length = x2.length := by
    by_contra hne2
    rcases Nat.lt_or_ge x.length x2.length with hlt | hge
    · have := countOcc_two_of_occ hne x.length x2.length hlt o1 o2
      omega
    · have hlt2 : x2.length < x.length := by omega
      have := countOcc_two_of_occ hne x2.length x.length hlt2 o2 o1
      omega
  have hx : x = x2 := by
    have t1 : l.take x.length = x := by rw [h1, List.take_left]
    have t2 : l.take x2.length = x2 := by rw [h2, List.take_left]
    rw [← t1, ← t2, hxx]
  refine ⟨hx, ?_⟩
  subst hx
  rw [h1] at h2
  exact List.append_cancel_left (List.append_cancel_left h2)

/-- Applying `update_file` twice with the same content is the identity on the
second application, for well-formed targets and marker-free content. -/
theorem update_file_idem (ms me hdr orig content : List Char)
    (hs : MarkerSpec ms me hdr) (hwf : MarkerWF ms me orig)
    (hcms : countOcc content ms = 0) (hcme : countOcc content me = 0) :
    update_file ms me hdr (update_file ms me hdr orig content) content
      = update_file ms me hdr orig content := by
  obtain ⟨a, b, hres, hcnt1, hcnt2, _⟩ :=
    update_file_normal ms me hdr orig content hs hwf hcms hcme
  have hwf2 : MarkerWF ms me (update_file ms me hdr orig content) := by
    right
    refine ⟨a, hdr ++ (content ++ toL "\n"), b, ?_, hcnt1, hcnt2⟩
    rw [hres]
    simp only [List.append_assoc]
  obtain ⟨a2, b2, hres2, _, _, hbr⟩ :=
    update_file_normal ms me hdr _ content hs hwf2 hcms hcme
  rcases hbr with ⟨m2, hm2⟩ | ⟨hno, _, _, _⟩
  · have hu1 := unique_marker_decomp hs.msNe hcnt1 hres hm2
    have hu2 := unique_marker_decomp hs.meNe hcnt2
      (show update_file ms me hdr orig content
        = (a ++ (ms ++ (hdr ++ (content ++ toL "\n")))) ++ (me ++ b) by
        rw [hres]; simp only [List.append_assoc])
      (show update_file ms me hdr orig content = (a2 ++ (ms ++ m2)) ++ (me ++ b2) by
        rw [hm2]; simp only [List.append_assoc])
    rw [hres2, ← hu1.1, ← hu2.2, ← hres]
  · exfalso
    apply hno
    rw [hres]
    exact infixAppR a (infixAppL _ List.infix_rfl)

/-! ### Filesystem model -/

/-- A path relative to the project root, as a list of components. -/
abbrev FSPath := List String

/-- One file: path, text content, and whether it decodes as UTF-8. -/
structure FSEntry where
  path : FSPath
  content : List Char
  readable : Bool
deriving DecidableEq

/-- The project tree: files plus directories. -/
structure FS where
  files : List FSEntry
  dirs : List FSPath
deriving DecidableEq

/-- `shutil.rmtree`: remove the whole subtree rooted at `p`. -/
def rmtree (fs : FS) (p : FSPath) : FS :=
  { files := fs.files.filter (fun e => !(p.isPrefixOf e.path)),
    dirs := fs.dirs.filter (fun d => !(p.isPrefixOf d)) }

/-- `path.mkdir(parents=True, exist_ok=True)`: ensure the directory exists
(parent bookkeeping is immaterial to the claims). -/
def mkdirP (fs : FS) (p : FSPath) : FS :=
  { fs with dirs := if p ∈ fs.dirs then fs.dirs else fs.dirs ++ [p] }

/-- The `clean_dir` helper of setup_directories (lines 52-55). -/
def clean_dir (fs : FS) (p : FSPath) : FS :=
  mkdirP (rmtree fs p) p

/-- `Path.write_text`: overwrite in place, or create. -/
def writeText (fs : FS) (p : FSPath) (c : List Char) : FS :=
  { fs with files :=
      if fs.files.any (fun e => e.path == p) then
        fs.files.map (fun e => if e.path = p then ⟨p, c, true⟩ else e)
      else fs.files ++ [⟨p, c, true⟩] }

/-- Look a file up by path. -/
def fileAt (fs : FS) (p : FSPath) : Option FSEntry :=
  fs.files.find? (fun e => e.path == p)

def windsurfWorkflows : FSPath := [".windsurf", "workflows"]
def kittifyMemory : FSPath := [".kittify", "memory"]
def configPath : FSPath := [".kittify", "config.yaml"]
def agentRules : FSPath := [".agent", "rules"]
def agentWorkflows : FSPath := [".agent", "workflows"]
def claudeCommands : FSPath := [".claude", "commands"]
def geminiCommands : FSPath := [".gemini", "commands"]
def githubPrompts : FSPath := [".github", "prompts"]

/-- setup_directories (speckit_system_bridge.py lines 47-68): ensure
.agent/rules exists without cleaning it; clean-sweep the four generated
directories. -/
def setup_directories (fs : FS) : FS :=
  clean_dir (clean_dir (clean_dir (clean_dir (mkdirP fs agentRules)
    agentWorkflows) claudeCommands) geminiCommands) githubPrompts

/-! ### Ingestion (ingest_rules / ingest_workflows) -/

/-- Warnings surfaced on stdout by the bridge and the verifier. -/
inductive Warn
  | noRulesDir
  | noWorkflowsDir
  | unreadable (p : FSPath)
  | noSourceRules
  | noSourceWorkflows
deriving DecidableEq

/-- Python dict insertion: replace the value of an existing key in place,
or append a new key at the end. -/
def upsert (m : List (String × List Char)) (k : String) (v : List Char) :
    List (String × List Char) :=
  if m.any (fun kv => kv.1 == k) then
    m.map (fun kv => if kv.1 = k then (k, v) else kv)
  else m ++ [(k, v)]

/-- Index of the last occurrence of a character. -/
def lastIdx (l : List Char) (c : Char) : Option Nat :=
  match l with
  | [] => none
  | x :: t =>
    match lastIdx t c with
    | some i => some (i + 1)
    | none => if x = c then some 0 else none

/-- Python `Path.stem`: the file name without its final suffix; a leading or
trailing dot does not count as a suffix separator. -/
def pathStem (name : List Char) : List Char :=
  match lastIdx name '.' with
  | some i => if 0 < i ∧ i < name.length - 1 then name.take i else name
  | none => name

/-- Does `p` match `d.rglob("*.md")`: strictly under `d`, file name ends in
`.md`. -/
def matchesRGlobMd (d : FSPath) (p : FSPath) : Bool :=
  d.isPrefixOf p && decide (d.length < p.length) &&
    (match p.getLast? with
     | some name => (toL ".md").isSuffixOf name.data
     | none => false)

/-- The file name (last component) of a path. -/
def fsName (p : FSPath) : String := p.getLast?.getD ""

/-- Python `sorted` on paths: lexicographic on the joined path string. -/
def pathStr (p : FSPath) : String := String.intercalate "/" p

/-- Lexicographic code-point order on character lists (the order Python uses
when comparing path strings). -/
def lexLe : List Char → List Char → Bool
  | [], _ => true
  | _ :: _, [] => false
  | a :: s, b :: t => if a = b then lexLe s t else decide (a < b)

def entryLe (a b : FSEntry) : Prop :=
  lexLe (pathStr a.path).data (pathStr b.path).data = true

instance : DecidableRel entryLe :=
  fun a b =>
    inferInstanceAs (Decidable (lexLe (pathStr a.path).data (pathStr b.path).data = true))

def sortEntries (l : List FSEntry) : List FSEntry := l.insertionSort entryLe

/-- ingest_rules (lines 71-87): `.md` files anywhere under .kittify/memory in
sorted order, keyed by stem; unreadable files are skipped with a warning;
a missing directory yields an empty mapping and a warning. -/
def ingest_rules (fs : FS) : List (String × List Char) × List Warn :=
  if kittifyMemory ∈ fs.dirs then
    (sortEntries (fs.files.filter (fun e => matchesRGlobMd kittifyMemory e.path))).foldl
      (fun acc e =>
        if e.readable then (upsert acc.1 (String.mk (pathStem (fsName e.path).data)) e.content, acc.2)
        else (acc.1, acc.2 ++ [Warn.unreadable e.path]))
      ([], [])
  else ([], [Warn.noRulesDir])

/-- ingest_workflows (lines 89-105): `.md` files anywhere under
.windsurf/workflows in sorted order, keyed by bare file name. -/
def ingest_workflows (fs : FS) : List (String × List Char) × List Warn :=
  if windsurfWorkflows ∈ fs.dirs then
    (sortEntries (fs.files.filter (fun e => matchesRGlobMd windsurfWorkflows e.path))).foldl
      (fun acc e =>
        if e.readable then (upsert acc.1 (fsName e.path) e.content, acc.2)
        else (acc.1, acc.2 ++ [Warn.unreadable e.path]))
      ([], [])
  else ([], [Warn.noWorkflowsDir])

/-! ### Projector write-sets -/

/-- The workflow destination each projector writes (C2's left-hand side). -/
def proj_workflow_path : Target → String → FSPath
  | Target.antigravity, n => [".agent", "workflows", n]
  | Target.claude, n => [".claude", "commands", n]
  | Target.gemini, n => [".gemini", "commands", String.mk (gemini_stem n.data) ++ ".toml"]
  | Target.copilot, n => [".github", "prompts", String.mk (gemini_stem n.data) ++ ".prompt.md"]

/-- The workflow destination the integrity verifier expects (C2's right-hand
side), derived via `Path.stem` in verify_bridge_integrity.py. -/
def verif_workflow_path : Target → String → FSPath
  | Target.antigravity, n => [".agent", "workflows", n]
  | Target.claude, n => [".claude", "commands", n]
  | Target.gemini, n => [".gemini", "commands", String.mk (pathStem n.data) ++ ".toml"]
  | Target.copilot, n => [".github", "prompts", String.mk (pathStem n.data) ++ ".prompt.md"]

/-- A rules section block `## <name>\n\n<text>\n\n---\n\n`. -/
def ruleSection (pre : List Char) (kv : String × List Char) : List Char :=
  pre ++ (kv.1.data ++ (toL "\n\n" ++ (kv.2 ++ toL "\n\n---\n\n")))

/-- sync_antigravity (lines 107-123): rules verbatim, workflows transformed. -/
def sync_antigravity_writes (rules workflows : List (String × List Char)) :
    List (FSPath × List Char) :=
  rules.map (fun kv => ([".agent", "rules", kv.1 ++ ".md"], kv.2)) ++
  workflows.map (fun kv => (proj_workflow_path Target.antigravity kv.1, antigravity_workflow kv.2))

/-- CLAUDE.md body (lines 130-137). -/
def claude_md (rules : List (String × List Char)) : List Char :=
  toL "# Claude Assistant Instructions\n" ++ (toL "Managed by Spec Kitty Bridge.\n\n" ++
    (rules.map (ruleSection (toL "## "))).flatten)

/-- sync_claude (lines 125-147). -/
def sync_claude_writes (rules workflows : List (String × List Char)) :
    List (FSPath × List Char) :=
  [([".claude", "CLAUDE.md"], claude_md rules)] ++
  workflows.map (fun kv => (proj_workflow_path Target.claude kv.1, claude_workflow kv.2))

/-- GEMINI.md body (lines 157-163); note the code writes it to the project
root, not into .gemini/. -/
def gemini_md (rules : List (String × List Char)) : List Char :=
  toL "# Gemini CLI Instructions\n" ++ (toL "Managed by Spec Kitty Bridge.\n\n" ++
    (rules.map (ruleSection (toL "## "))).flatten)

/-- sync_gemini (lines 149-190). -/
def sync_gemini_writes (rules workflows : List (String × List Char)) :
    List (FSPath × List Char) :=
  [(["GEMINI.md"], gemini_md rules)] ++
  workflows.map (fun kv => (proj_workflow_path Target.gemini kv.1, gemini_toml kv.1.data kv.2))

/-- copilot-instructions.md body (lines 196-211): rule sections plus the
workflow index. -/
def copilot_instructions (rules workflows : List (String × List Char)) : List Char :=
  toL "# Copilot Instructions\n" ++ (toL "> Managed by Spec Kitty Bridge.\n\n" ++
    ((rules.map (ruleSection (toL "## Rule: "))).flatten ++
      (toL "\n# Available Workflows\n" ++
        (workflows.map (fun kv =>
          toL "- /prompts/" ++ (gemini_stem kv.1.data ++ toL ".prompt.md\n"))).flatten)))

/-- sync_copilot (lines 192-224). -/
def sync_copilot_writes (rules workflows : List (String × List Char)) :
    List (FSPath × List Char) :=
  [([".github", "copilot-instructions.md"], copilot_instructions rules workflows)] ++
  workflows.map (fun kv => (proj_workflow_path Target.copilot kv.1, copilot_workflow kv.2))

/-- All writes of one projection pass, in main's order (lines 294-298). -/
def bridge_writes (rules workflows : List (String × List Char)) :
    List (FSPath × List Char) :=
  sync_antigravity_writes rules workflows ++ sync_claude_writes rules workflows ++
  sync_gemini_writes rules workflows ++ sync_copilot_writes rules workflows

def applyWrites (fs : FS) (ws : List (FSPath × List Char)) : FS :=
  ws.foldl (fun f w => writeText f w.1 w.2) fs

/-- The last write to a path in a write-set, if any. -/
def lookupLast (ws : List (FSPath × List Char)) (p : FSPath) : Option (List Char) :=
  match ws with
  | [] => none
  | w :: rest =>
    match lookupLast rest p with
    | some c => some c
    | none => if w.1 = p then some w.2 else none

/-- main (lines 281-303), parameterized by the config-file serialization
(the YAML library is an external collaborator; the registrar's structured
behaviour is modelled separately for C1): setup, ingest, early return when
both mappings are empty, otherwise project to all four targets and rewrite
the config file. -/
def bridge_main (cfgWriter : Option (List Char) → List Char) (fs : FS) : FS :=
  if (ingest_workflows (setup_directories fs)).1 = [] ∧
      (ingest_rules (setup_directories fs)).1 = [] then
    setup_directories fs
  else
    writeText
      (applyWrites (setup_directories fs)
        (bridge_writes (ingest_rules (setup_directories fs)).1
          (ingest_workflows (setup_directories fs)).1))
      configPath
      (cfgWriter ((fileAt (applyWrites (setup_directories fs)
          (bridge_writes (ingest_rules (setup_directories fs)).1
            (ingest_workflows (setup_directories fs)).1)) configPath).map
        (fun e => e.content)))

/-! ### Facts about the directory preparer -/

theorem setup_files (fs : FS) :
    (setup_directories fs).files =
      (((fs.files.filter (fun e => !(agentWorkflows.isPrefixOf e.path))).filter
        (fun e => !(claudeCommands.isPrefixOf e.path))).filter
        (fun e => !(geminiCommands.isPrefixOf e.path))).filter
        (fun e => !(githubPrompts.isPrefixOf e.path)) := rfl

theorem notPrefixB {d p : FSPath} : (!(d.isPrefixOf p)) = true ↔ ¬ d <+: p := by
  rw [← List.isPrefixOf_iff_prefix]
  cases hb : d.isPrefixOf p <;> simp [hb]

theorem not_prefix_of_pref {d r p : FSPath} (h1 : ¬ d <+: r) (h2 : ¬ r <+: d)
    (hp : r <+: p) : ¬ d <+: p := by
  intro h
  rcases List.prefix_or_prefix_of_prefix h hp with hh | hh
  · exact h1 hh
  · exact h2 hh

theorem mkdirP_mem_self (fs : FS) (p : FSPath) : p ∈ (mkdirP fs p).dirs := by
  unfold mkdirP
  by_cases h : p ∈ fs.dirs
  · simp [h]
  · simp [h]

theorem mkdirP_mem_mono {fs : FS} {q : FSPath} (p : FSPath) (h : q ∈ fs.dirs) :
    q ∈ (mkdirP fs p).dirs := by
  unfold mkdirP
  by_cases hp : p ∈ fs.dirs
  · simpa [hp] using h
  · simp [hp, h]

theorem rmtree_mem {fs : FS} {q : FSPath} (p : FSPath) (h : q ∈ fs.dirs)
    (hnp : ¬ p <+: q) : q ∈ (rmtree fs p).dirs := by
  unfold rmtree
  simp only [List.mem_filter]
  exact ⟨h, notPrefixB.mpr hnp⟩

theorem clean_dir_self (fs : FS) (p : FSPath) : p ∈ (clean_dir fs p).dirs :=
  mkdirP_mem_self (rmtree fs p) p

theorem clean_dir_mono {fs : FS} {q : FSPath} (p : FSPath) (h : q ∈ fs.dirs)
    (hnp : ¬ p <+: q) : q ∈ (clean_dir fs p).dirs :=
  mkdirP_mem_mono p (rmtree_mem p h hnp)

/-- C5 helper: full description of setup_directories' effect. -/
theorem setup_effect (fs : FS) :
    (∀ e ∈ (setup_directories fs).files,
        ¬ agentWorkflows <+: e.path ∧ ¬ claudeCommands <+: e.path ∧
        ¬ geminiCommands <+: e.path ∧ ¬ githubPrompts <+: e.path) ∧
    (∀ e : FSEntry, agentRules <+: e.path →
        (e ∈ (setup_directories fs).files ↔ e ∈ fs.files)) ∧
    agentRules ∈ (setup_directories fs).dirs ∧
    agentWorkflows ∈ (setup_directories fs).dirs ∧
    claudeCommands ∈ (setup_directories fs).dirs ∧
    geminiCommands ∈ (setup_directories fs).dirs ∧
    githubPrompts ∈ (setup_directories fs).dirs := by
  refine ⟨?_, ?_, ?_, ?_, ?_, ?_, ?_⟩
  · intro e he
    rw [setup_files] at he
    simp only [List.mem_filter] at he
    exact ⟨notPrefixB.mp he.1.1.1.2, notPrefixB.mp he.1.1.2,
      notPrefixB.mp he.1.2, notPrefixB.mp he.2⟩
  · intro e hrp
    rw [setup_files]
    simp only [List.mem_filter]
    constructor
    · intro h
      exact h.1.1.1.1
    · intro h
      refine ⟨⟨⟨⟨h, ?_⟩, ?_⟩, ?_⟩, ?_⟩
      · exact notPrefixB.mpr (not_prefix_of_pref (by decide) (by decide) hrp)
      · exact notPrefixB.mpr (not_prefix_of_pref (by decide) (by decide) hrp)
      · exact notPrefixB.mpr (not_prefix_of_pref (by decide) (by decide) hrp)
      · exact notPrefixB.mpr (not_prefix_of_pref (by decide) (by decide) hrp)
  · exact clean_dir_mono _ (clean_dir_mono _ (clean_dir_mono _ (clean_dir_mono _
      (mkdirP_mem_self fs agentRules) (by decide)) (by decide)) (by decide)) (by decide)
  · exact clean_dir_mono _ (clean_dir_mono _ (clean_dir_mono _
      (clean_dir_self _ agentWorkflows) (by decide)) (by decide)) (by decide)
  · exact clean_dir_mono _ (clean_dir_mono _
      (clean_dir_self _ claudeCommands) (by decide)) (by decide)
  · exact clean_dir_mono _ (clean_dir_self _ geminiCommands) (by decide)
  · exact clean_dir_self _ githubPrompts

theorem find?_filter_eq {α : Type} (l : List α) (f : α → Bool) (p : α → Bool)
    (h : ∀ e, p e = true → f e = true) : (l.filter f).find? p = l.find? p := by
  induction l with
  | nil => rfl
  | cons e t ih =>
    rw [List.filter_cons]
    by_cases hp : p e = true
    · rw [if_pos (h e hp), List.find?_cons_of_pos _ hp, List.find?_cons_of_pos _ hp]
    · by_cases hf : f e = true
      · rw [if_pos hf, List.find?_cons_of_neg _ hp, List.find?_cons_of_neg _ hp, ih]
      · rw [if_neg hf, List.find?_cons_of_neg _ hp, ih]

theorem beq_path_eq {e : FSEntry} {p : FSPath} (h : (e.path == p) = true) : e.path = p :=
  eq_of_beq h

/-- Paths not inside a generated directory are untouched by setup. -/
theorem fileAt_setup {fs : FS} {p : FSPath}
    (h1 : ¬ agentWorkflows <+: p) (h2 : ¬ claudeCommands <+: p)
    (h3 : ¬ geminiCommands <+: p) (h4 : ¬ githubPrompts <+: p) :
    fileAt (setup_directories fs) p = fileAt fs p := by
  unfold fileAt
  rw [setup_files]
  rw [find?_filter_eq _ _ _ (fun e he => notPrefixB.mpr (by rw [beq_path_eq he]; exact h4)),
    find?_filter_eq _ _ _ (fun e he => notPrefixB.mpr (by rw [beq_path_eq he]; exact h3)),
    find?_filter_eq _ _ _ (fun e he => notPrefixB.mpr (by rw [beq_path_eq he]; exact h2)),
    find?_filter_eq _ _ _ (fun e he => notPrefixB.mpr (by rw [beq_path_eq he]; exact h1))]

/-- Paths inside a generated directory are gone right after setup. -/
theorem fileAt_setup_none {fs : FS} {p : FSPath}
    (h : agentWorkflows <+: p ∨ claudeCommands <+: p ∨
      geminiCommands <+: p ∨ githubPrompts <+: p) :
    fileAt (setup_directories fs) p = none := by
  unfold fileAt
  rw [List.find?_eq_none]
  intro e he hpe
  have hep : e.path = p := beq_path_eq hpe
  have := (setup_effect fs).1 e he
  rcases h with h | h | h | h
  · exact this.1 (hep ▸ h)
  · exact this.2.1 (hep ▸ h)
  · exact this.2.2.1 (hep ▸ h)
  · exact this.2.2.2 (hep ▸ h)

/-! ### Stem derivations (C2) -/

theorem replaceAll_append_pat {pat : List Char} (hne : pat ≠ []) :
    ∀ s, (∀ j, j < s.length → ¬ pat <+: (s ++ pat).drop j) →
      replaceAll (s ++ pat) pat [] = s := by
  intro s
  induction s with
  | nil =>
    intro _
    simp only [List.nil_append]
    rw [replaceAll_pos [] hne List.prefix_rfl]
    simp [List.drop_length, replaceAll_nil]
  | cons c s2 ih =>
    intro h
    have h0 : ¬ pat <+: ((c :: s2) ++ pat) := by
      have := h 0 (by simp)
      simpa using this
    rw [List.cons_append, replaceAll_cons_neg []
      (by rw [← List.cons_append]; rintro ⟨_, hp⟩; exact h0 hp)]
    congr 1
    refine ih ?_
    intro j hj
    have := h (j + 1) (by simp only [List.length_cons]; omega)
    simpa using this

theorem stem_replace_eq {s : List Char} (hcount : countOcc (s ++ toL ".md") (toL ".md") = 1) :
    replaceAll (s ++ toL ".md") (toL ".md") [] = s := by
  refine replaceAll_append_pat (by decide) s ?_
  intro j hj hpre
  have hocc2 : (toL ".md") <+: (s ++ toL ".md").drop s.length := by
    rw [List.drop_left]
  have := countOcc_two_of_occ (by decide) j s.length hj hpre hocc2
  omega

theorem lastIdx_md (s : List Char) : lastIdx (s ++ toL ".md") '.' = some s.length := by
  induction s with
  | nil => rfl
  | cons x s2 ih =>
    show lastIdx (x :: (s2 ++ toL ".md")) '.' = some (s2.length + 1)
    rw [lastIdx, ih]

theorem pathStem_md (s : List Char) (hne : s ≠ []) :
    pathStem (s ++ toL ".md") = s := by
  rw [pathStem, lastIdx_md]
  have h0 : 0 < s.length := List.length_pos.mpr hne
  have hc : 0 < s.length ∧ s.length < (s ++ toL ".md").length - 1 := by
    refine ⟨h0, ?_⟩
    rw [List.length_append]
    have : (toL ".md").length = 3 := rfl
    omega
  show (if 0 < s.length ∧ s.length < (s ++ toL ".md").length - 1
      then (s ++ toL ".md").take s.length else s ++ toL ".md") = s
  rw [if_pos hc, List.take_left]

/-- C2 (amended): for every workflow filename in which ".md" occurs exactly
once, namely as its proper extension, the destination path the projector
writes equals the destination path the integrity verifier expects, for every
target; in particular the `filename.replace(".md", "")` stem agrees with
`Path.stem`. -/
theorem C2_theorem (t : Target) (name : String) (s : List Char) (hne : s ≠ [])
    (hdecomp : name.data = s ++ toL ".md")
    (hcount : countOcc name.data (toL ".md") = 1) :
    proj_workflow_path t name = verif_workflow_path t name := by
  have hstem : gemini_stem name.data = pathStem name.data := by
    unfold gemini_stem
    rw [hdecomp, stem_replace_eq (by rw [← hdecomp]; exact hcount), pathStem_md s hne]
  cases t <;> simp [proj_workflow_path, verif_workflow_path, hstem]

theorem C2_witness :
    proj_workflow_path Target.gemini "plan.md" = verif_workflow_path Target.gemini "plan.md" :=
  C2_theorem Target.gemini "plan.md" (toL "plan") (by decide) (by decide) (by decide)

/-- C2 counterexample: for the source workflow filename "a.md.md" the Gemini
projector writes `a.toml` while the verifier expects `a.md.toml`, so the
written file is reported missing. -/
theorem C2_counterexample :
    proj_workflow_path Target.gemini "a.md.md" ≠ verif_workflow_path Target.gemini "a.md.md" := by
  decide

/-! ### C3: actor substitution -/

/-- C3 (amended): for every *workflow* document whose body contains the
generic actor token and every target, the projected workflow artifact
contains the target's actor form and does not contain the generic token. -/
theorem C3_theorem (t : Target) (filename text : List Char) (h : actorTok <:+: text) :
    actor_form t <:+: workflow_artifact t filename text ∧
    ¬ actorTok <:+: workflow_artifact t filename text := by
  cases t
  · exact ⟨anti_contains h, anti_no_tok text⟩
  · exact ⟨claude_contains h, claude_no_tok text⟩
  · exact ⟨gemini_contains h, gemini_no_tok filename text⟩
  · exact ⟨copilot_contains h, copilot_no_tok text⟩

theorem C3_witness :
    actor_form Target.antigravity <:+:
        workflow_artifact Target.antigravity (toL "w.md") actorTok ∧
    ¬ actorTok <:+: workflow_artifact Target.antigravity (toL "w.md") actorTok :=
  C3_theorem Target.antigravity (toL "w.md") actorTok List.infix_rfl

def c3rule : List Char := toL "Run spec-kitty accept --actor \"windsurf\" now."

/-- C3 counterexample: a *rule* document containing the generic actor token
is projected verbatim by sync_antigravity (line 116), so its artifact still
contains the generic token and lacks the substituted actor form — refuting
the claim for rule documents. -/
theorem C3_counterexample :
    lookupLast (sync_antigravity_writes [("r", c3rule)] []) [".agent", "rules", "r.md"]
        = some c3rule ∧
    actorTok <:+: c3rule ∧ ¬ actorAntigravity <:+: c3rule := by
  refine ⟨rfl, ?_, by decide⟩
  decide

/-! ### C5: the directory preparer -/

/-- C5: on every run setup_directories removes and recreates each
generated-only subtree (.agent/workflows, .claude/commands,
.gemini/commands, .github/prompts) — no file survives under them — while
for the mixed rules directory .agent/rules it only ensures existence and
leaves every pre-existing file unchanged. -/
theorem C5_theorem (fs : FS) :
    (∀ e ∈ (setup_directories fs).files,
        ¬ agentWorkflows <+: e.path ∧ ¬ claudeCommands <+: e.path ∧
        ¬ geminiCommands <+: e.path ∧ ¬ githubPrompts <+: e.path) ∧
    (∀ e : FSEntry, agentRules <+: e.path →
        (e ∈ (setup_directories fs).files ↔ e ∈ fs.files)) ∧
    agentRules ∈ (setup_directories fs).dirs ∧
    agentWorkflows ∈ (setup_directories fs).dirs ∧
    claudeCommands ∈ (setup_directories fs).dirs ∧
    geminiCommands ∈ (setup_directories fs).dirs ∧
    githubPrompts ∈ (setup_directories fs).dirs :=
  setup_effect fs

theorem C5_witness :
    (⟨agentRules ++ ["c.md"], toL "x", true⟩ : FSEntry) ∈
        (setup_directories ⟨[⟨agentRules ++ ["c.md"], toL "x", true⟩], []⟩).files ↔
      (⟨agentRules ++ ["c.md"], toL "x", true⟩ : FSEntry) ∈
        ([⟨agentRules ++ ["c.md"], toL "x", true⟩] : List FSEntry) :=
  (C5_theorem ⟨[⟨agentRules ++ ["c.md"], toL "x", true⟩], []⟩).2.1
    ⟨agentRules ++ ["c.md"], toL "x", true⟩ (List.prefix_append agentRules ["c.md"])

/-! ### C9: the empty-source early return -/

/-- C9: when both ingested mappings are empty, main returns right after
setup_directories — the generated subtrees are already emptied and
recreated, no projector output exists under them, and the config file is
untouched. -/
theorem C9_theorem (cfgWriter : Option (List Char) → List Char) (fs : FS)
    (hr : (ingest_rules (setup_directories fs)).1 = [])
    (hw : (ingest_workflows (setup_directories fs)).1 = []) :
    bridge_main cfgWriter fs = setup_directories fs ∧
    fileAt (bridge_main cfgWriter fs) configPath = fileAt fs configPath ∧
    (∀ e ∈ (bridge_main cfgWriter fs).files,
      ¬ agentWorkflows <+: e.path ∧ ¬ claudeCommands <+: e.path ∧
      ¬ geminiCommands <+: e.path ∧ ¬ githubPrompts <+: e.path) := by
  have h1 : bridge_main cfgWriter fs = setup_directories fs := by
    rw [bridge_main, if_pos ⟨hw, hr⟩]
  refine ⟨h1, ?_, ?_⟩
  · rw [h1]
    exact fileAt_setup (by decide) (by decide) (by decide) (by decide)
  · rw [h1]
    exact (setup_effect fs).1

theorem C9_witness :
    bridge_main (fun _ => []) ⟨[], []⟩ = setup_directories ⟨[], []⟩ ∧
    fileAt (bridge_main (fun _ => []) ⟨[], []⟩) configPath = fileAt ⟨[], []⟩ configPath ∧
    (∀ e ∈ (bridge_main (fun _ => []) ⟨[], []⟩).files,
      ¬ agentWorkflows <+: e.path ∧ ¬ claudeCommands <+: e.path ∧
      ¬ geminiCommands <+: e.path ∧ ¬ githubPrompts <+: e.path) :=
  C9_theorem (fun _ => []) ⟨[], []⟩ rfl rfl

/-! ### C10: duplicate workflow filenames in different subdirectories -/

/-- C10: workflow ingestion scans recursively but keys by bare filename, so
of two source files with the same name in different subdirectories only the
one later in sorted path order survives (Python dict insertion overwrites
the value in place), and no warning is emitted. -/
theorem C10_theorem (d1 d2 n : String) (c1 c2 : List Char)
    (hmd : (toL ".md").isSuffixOf n.data = true)
    (hle : entryLe ⟨[".windsurf", "workflows", d1, n], c1, true⟩
      ⟨[".windsurf", "workflows", d2, n], c2, true⟩) :
    ingest_workflows ⟨[⟨[".windsurf", "workflows", d1, n], c1, true⟩,
        ⟨[".windsurf", "workflows", d2, n], c2, true⟩], [windsurfWorkflows]⟩
      = ([(n, c2)], []) := by
  have hm1 : matchesRGlobMd windsurfWorkflows [".windsurf", "workflows", d1, n] = true := hmd
  have hm2 : matchesRGlobMd windsurfWorkflows [".windsurf", "workflows", d2, n] = true := hmd
  unfold ingest_workflows
  rw [if_pos (show windsurfWorkflows ∈ [windsurfWorkflows] from List.mem_singleton.mpr rfl)]
  show ((sortEntries (List.filter _ [⟨[".windsurf", "workflows", d1, n], c1, true⟩,
      ⟨[".windsurf", "workflows", d2, n], c2, true⟩])).foldl _ ([], [])) = ([(n, c2)], [])
  rw [List.filter_cons, List.filter_cons, List.filter_nil, if_pos hm1, if_pos hm2]
  rw [show sortEntries [⟨[".windsurf", "workflows", d1, n], c1, true⟩,
      ⟨[".windsurf", "workflows", d2, n], c2, true⟩]
      = [⟨[".windsurf", "workflows", d1, n], c1, true⟩,
        ⟨[".windsurf", "workflows", d2, n], c2, true⟩] from by
    unfold sortEntries
    show List.orderedInsert entryLe _ (List.orderedInsert entryLe _ []) = _
    rw [List.orderedInsert, List.orderedInsert, if_pos hle]]
  rw [List.foldl_cons, List.foldl_cons, List.foldl_nil]
  show (upsert (upsert [] (fsName [".windsurf", "workflows", d1, n]) c1)
      (fsName [".windsurf", "workflows", d2, n]) c2, ([] : List Warn)) = ([(n, c2)], [])
  rw [show fsName [".windsurf", "workflows", d1, n] = n from rfl,
    show fsName [".windsurf", "workflows", d2, n] = n from rfl,
    show upsert [] n c1 = [(n, c1)] from rfl]
  unfold upsert
  rw [if_pos (show List.any [(n, c1)] (fun kv => kv.1 == n) = true by simp),
    List.map_cons, List.map_nil, if_pos rfl]

theorem C10_witness :
    ingest_workflows ⟨[⟨[".windsurf", "workflows", "a", "x.md"], toL "one", true⟩,
        ⟨[".windsurf", "workflows", "b", "x.md"], toL "two", true⟩], [windsurfWorkflows]⟩
      = ([("x.md", toL "two")], []) :=
  C10_theorem "a" "b" "x.md" (toL "one") (toL "two") (by decide) (by decide)

/-! ### find? and filter bookkeeping for the run-twice claim -/

theorem filter_absorb {α : Type} (f g : α → Bool) (l : List α)
    (h : ∀ e, f e = true → g e = true) : (l.filter g).filter f = l.filter f := by
  induction l with
  | nil => rfl
  | cons e t ih =>
    by_cases hg : g e = true
    · rw [List.filter_cons, if_pos hg, List.filter_cons, List.filter_cons]
      by_cases hf : f e = true
      · rw [if_pos hf, if_pos hf, ih]
      · rw [if_neg hf, if_neg hf, ih]
    · rw [List.filter_cons, if_neg hg, List.filter_cons]
      by_cases hf : f e = true
      · exact absurd (h e hf) hg
      · rw [if_neg hf, ih]

theorem filter_map_update {l : List FSEntry} {p : FSPath} {c : List Char} {f : FSEntry → Bool}
    (hf : ∀ e : FSEntry, e.path = p → f e = false) :
    (l.map (fun e => if e.path = p then ⟨p, c, true⟩ else e)).filter f = l.filter f := by
  induction l with
  | nil => rfl
  | cons e t ih =>
    rw [List.map_cons]
    by_cases hp : e.path = p
    · rw [if_pos hp, List.filter_cons, List.filter_cons]
      have h1 : f ⟨p, c, true⟩ = false := hf _ rfl
      have h2 : f e = false := hf e hp
      rw [if_neg (by simp [h1]), if_neg (by simp [h2]), ih]
    · rw [if_neg hp, List.filter_cons, List.filter_cons, ih]

theorem filter_append_new {l : List FSEntry} {p : FSPath} {c : List Char} {f : FSEntry → Bool}
    (h1 : f ⟨p, c, true⟩ = false) :
    (l ++ [(⟨p, c, true⟩ : FSEntry)]).filter f = l.filter f := by
  rw [List.filter_append]
  rw [List.filter_cons, if_neg (by simp [h1]), List.filter_nil, List.append_nil]

theorem filter_writeText (fs : FS) (p : FSPath) (c : List Char) (f : FSEntry → Bool)
    (hf : ∀ e : FSEntry, e.path = p → f e = false) :
    (writeText fs p c).files.filter f = fs.files.filter f := by
  unfold writeText
  by_cases hany : fs.files.any (fun e => e.path == p) = true
  · simp only [if_pos hany]
    exact filter_map_update hf
  · simp only [if_neg hany]
    exact filter_append_new (hf _ rfl)

theorem filter_applyWrites (f : FSEntry → Bool) :
    ∀ (ws : List (FSPath × List Char)), (∀ w ∈ ws, ∀ e : FSEntry, e.path = w.1 → f e = false) →
      ∀ fs, (applyWrites fs ws).files.filter f = fs.files.filter f := by
  intro ws
  induction ws with
  | nil => intro _ fs; rfl
  | cons w rest ih =>
    intro h fs
    show (applyWrites (writeText fs w.1 w.2) rest).files.filter f = _
    rw [ih (fun w2 hw2 => h w2 (List.mem_cons_of_mem w hw2)),
      filter_writeText fs w.1 w.2 f (h w (List.mem_cons_self w rest))]

theorem writeText_dirs (fs : FS) (p : FSPath) (c : List Char) :
    (writeText fs p c).dirs = fs.dirs := rfl

theorem applyWrites_dirs : ∀ (ws : List (FSPath × List Char)) (fs : FS),
    (applyWrites fs ws).dirs = fs.dirs := by
  intro ws
  induction ws with
  | nil => intro fs; rfl
  | cons w rest ih =>
    intro fs
    show (applyWrites (writeText fs w.1 w.2) rest).dirs = fs.dirs
    rw [ih]
    rfl

theorem find?_map_update_self {l : List FSEntry} {q : FSPath} {c : List Char}
    (hany : l.any (fun e => e.path == q) = true) :
    (l.map (fun e => if e.path = q then ⟨q, c, true⟩ else e)).find? (fun e => e.path == q)
      = some ⟨q, c, true⟩ := by
  induction l with
  | nil => simp at hany
  | cons e t ih =>
    rw [List.map_cons]
    by_cases hp : e.path = q
    · rw [if_pos hp]
      exact List.find?_cons_of_pos _ (by simp)
    · rw [if_neg hp, List.find?_cons_of_neg _ (by simp [hp])]
      apply ih
      simp only [List.any_cons, Bool.or_eq_true] at hany
      rcases hany with h | h
      · exact absurd (eq_of_beq h) hp
      · exact h

theorem find?_map_update_other {l : List FSEntry} {q : FSPath} {c : List Char} {p : FSPath}
    (hpq : p ≠ q) :
    (l.map (fun e => if e.path = q then ⟨q, c, true⟩ else e)).find? (fun e => e.path == p)
      = l.find? (fun e => e.path == p) := by
  induction l with
  | nil => rfl
  | cons e t ih =>
    rw [List.map_cons]
    by_cases hp : e.path = q
    · rw [if_pos hp,
        List.find?_cons_of_neg _ (by simp only [beq_iff_eq]; exact Ne.symm hpq),
        List.find?_cons_of_neg _ (by simp only [beq_iff_eq, hp]; exact Ne.symm hpq), ih]
    · rw [if_neg hp]
      by_cases hep : e.path = p
      · rw [List.find?_cons_of_pos _ (by simp [hep]), List.find?_cons_of_pos _ (by simp [hep])]
      · rw [List.find?_cons_of_neg _ (by simp [hep]), List.find?_cons_of_neg _ (by simp [hep]), ih]

theorem find?_append_entries {l : List FSEntry} {q : FSPath} {c : List Char} {p : FSPath} :
    (l ++ [(⟨q, c, true⟩ : FSEntry)]).find? (fun e => e.path == p)
      = if p = q ∧ l.find? (fun e => e.path == p) = none then some ⟨q, c, true⟩
        else l.find? (fun e => e.path == p) := by
  induction l with
  | nil =>
    simp only [List.nil_append, List.find?_nil]
    by_cases hpq : p = q
    · subst hpq
      rw [if_pos ⟨rfl, trivial⟩]
      exact List.find?_cons_of_pos _ (by simp)
    · rw [if_neg (fun h => hpq h.1)]
      exact List.find?_cons_of_neg _ (by simp only [beq_iff_eq]; exact Ne.symm hpq)
  | cons e t ih =>
    by_cases hep : e.path = p
    · rw [List.cons_append, List.find?_cons_of_pos _ (by simp [hep]),
        List.find?_cons_of_pos _ (by simp [hep])]
      rw [if_neg]
      rintro ⟨_, hnone⟩
      exact Option.noConfusion hnone
    · rw [List.cons_append, List.find?_cons_of_neg _ (by simp [hep]),
        List.find?_cons_of_neg _ (by simp [hep]), ih]

theorem fileAt_writeText (fs : FS) (q : FSPath) (c : List Char) (p : FSPath) :
    fileAt (writeText fs q c) p = if p = q then some ⟨q, c, true⟩ else fileAt fs p := by
  unfold writeText fileAt
  by_cases hany : fs.files.any (fun e => e.path == q) = true
  · simp only [if_pos hany]
    by_cases hpq : p = q
    · subst hpq
      rw [if_pos rfl]
      exact find?_map_update_self hany
    · rw [if_neg hpq]
      exact find?_map_update_other hpq
  · simp only [if_neg hany]
    rw [find?_append_entries]
    by_cases hpq : p = q
    · subst hpq
      have hnone : fs.files.find? (fun e => e.path == p) = none := by
        rw [List.find?_eq_none]
        intro x hx hbx
        exact hany (List.any_eq_true.mpr ⟨x, hx, hbx⟩)
      rw [if_pos ⟨rfl, hnone⟩, if_pos rfl]
    · rw [if_neg (fun h => hpq h.1), if_neg hpq]

theorem fileAt_applyWrites : ∀ (ws : List (FSPath × List Char)) (fs : FS) (p : FSPath),
    fileAt (applyWrites fs ws) p =
      (match lookupLast ws p with
       | some c => some ⟨p, c, true⟩
       | none => fileAt fs p) := by
  intro ws
  induction ws with
  | nil => intro fs p; rfl
  | cons w rest ih =>
    intro fs p
    show fileAt (applyWrites (writeText fs w.1 w.2) rest) p = _
    rw [ih]
    cases hl : lookupLast rest p with
    | some c =>
      rw [show lookupLast (w :: rest) p = some c from by rw [lookupLast, hl]]
    | none =>
      rw [fileAt_writeText]
      by_cases hp : p = w.1
      · rw [if_pos hp,
          show lookupLast (w :: rest) p = some w.2 from by
            rw [lookupLast, hl, if_pos hp.symm],
          hp]
      · rw [if_neg hp,
          show lookupLast (w :: rest) p = none from by
            rw [lookupLast, hl, if_neg (fun h => hp h.symm)]]

/-! ### Source-tree stability across a projection run (C6) -/

theorem matches_pref {d p : FSPath} (h : matchesRGlobMd d p = true) : d <+: p := by
  unfold matchesRGlobMd at h
  simp only [Bool.and_eq_true] at h
  exact List.isPrefixOf_iff_prefix.mp h.1.1

theorem setup_filter_src (fs : FS) (d : FSPath)
    (h1 : ¬ agentWorkflows <+: d) (h2 : ¬ d <+: agentWorkflows)
    (h3 : ¬ claudeCommands <+: d) (h4 : ¬ d <+: claudeCommands)
    (h5 : ¬ geminiCommands <+: d) (h6 : ¬ d <+: geminiCommands)
    (h7 : ¬ githubPrompts <+: d) (h8 : ¬ d <+: githubPrompts) :
    (setup_directories fs).files.filter (fun e => matchesRGlobMd d e.path)
      = fs.files.filter (fun e => matchesRGlobMd d e.path) := by
  rw [setup_files,
    filter_absorb _ _ _
      (fun e he => notPrefixB.mpr (not_prefix_of_pref h7 h8 (matches_pref he))),
    filter_absorb _ _ _
      (fun e he => notPrefixB.mpr (not_prefix_of_pref h5 h6 (matches_pref he))),
    filter_absorb _ _ _
      (fun e he => notPrefixB.mpr (not_prefix_of_pref h3 h4 (matches_pref he))),
    filter_absorb _ _ _
      (fun e he => notPrefixB.mpr (not_prefix_of_pref h1 h2 (matches_pref he)))]

theorem mkdirP_mem_iff {fs : FS} {p q : FSPath} (hne : q ≠ p) :
    q ∈ (mkdirP fs p).dirs ↔ q ∈ fs.dirs := by
  show q ∈ (if p ∈ fs.dirs then fs.dirs else fs.dirs ++ [p]) ↔ q ∈ fs.dirs
  by_cases h : p ∈ fs.dirs
  · rw [if_pos h]
  · rw [if_neg h]
    simp [List.mem_append, hne]

theorem rmtree_mem_iff {fs : FS} {p q : FSPath} (hnp : ¬ p <+: q) :
    q ∈ (rmtree fs p).dirs ↔ q ∈ fs.dirs := by
  show q ∈ fs.dirs.filter (fun d => !(p.isPrefixOf d)) ↔ q ∈ fs.dirs
  rw [List.mem_filter]
  exact ⟨fun h => h.1, fun h => ⟨h, notPrefixB.mpr hnp⟩⟩

theorem clean_dir_mem_iff {fs : FS} {p q : FSPath} (hne : q ≠ p) (hnp : ¬ p <+: q) :
    q ∈ (clean_dir fs p).dirs ↔ q ∈ fs.dirs :=
  (mkdirP_mem_iff hne).trans (rmtree_mem_iff hnp)

theorem setup_dirs_src (fs : FS) (d : FSPath)
    (h0 : d ≠ agentRules)
    (h1 : d ≠ agentWorkflows) (h2 : ¬ agentWorkflows <+: d)
    (h3 : d ≠ claudeCommands) (h4 : ¬ claudeCommands <+: d)
    (h5 : d ≠ geminiCommands) (h6 : ¬ geminiCommands <+: d)
    (h7 : d ≠ githubPrompts) (h8 : ¬ githubPrompts <+: d) :
    d ∈ (setup_directories fs).dirs ↔ d ∈ fs.dirs := by
  unfold setup_directories
  rw [clean_dir_mem_iff h7 h8, clean_dir_mem_iff h5 h6, clean_dir_mem_iff h3 h4,
    clean_dir_mem_iff h1 h2, mkdirP_mem_iff h0]

/-- Every path the projectors write lands in one of the eight target spots. -/
theorem bridge_writes_shape (r w : List (String × List Char)) :
    ∀ pr ∈ bridge_writes r w,
      (∃ x, pr.1 = [".agent", "rules", x]) ∨ (∃ x, pr.1 = [".agent", "workflows", x]) ∨
      pr.1 = [".claude", "CLAUDE.md"] ∨ (∃ x, pr.1 = [".claude", "commands", x]) ∨
      pr.1 = ["GEMINI.md"] ∨ (∃ x, pr.1 = [".gemini", "commands", x]) ∨
      pr.1 = [".github", "copilot-instructions.md"] ∨
      (∃ x, pr.1 = [".github", "prompts", x]) := by
  intro pr hpr
  unfold bridge_writes at hpr
  rcases List.mem_append.mp hpr with h123 | hP
  · rcases List.mem_append.mp h123 with h12 | hG
    · rcases List.mem_append.mp h12 with hA | hC
      · unfold sync_antigravity_writes at hA
        rcases List.mem_append.mp hA with hR | hW
        · obtain ⟨kv, _, hkv⟩ := List.mem_map.mp hR
          exact Or.inl ⟨kv.1 ++ ".md", by rw [← hkv]⟩
        · obtain ⟨kv, _, hkv⟩ := List.mem_map.mp hW
          exact Or.inr (Or.inl ⟨kv.1, by rw [← hkv]; rfl⟩)
      · unfold sync_claude_writes at hC
        rcases List.mem_append.mp hC with hM | hW
        · rw [List.mem_singleton] at hM
          exact Or.inr (Or.inr (Or.inl (by rw [hM])))
        · obtain ⟨kv, _, hkv⟩ := List.mem_map.mp hW
          exact Or.inr (Or.inr (Or.inr (Or.inl ⟨kv.1, by rw [← hkv]; rfl⟩)))
    · unfold sync_gemini_writes at hG
      rcases List.mem_append.mp hG with hM | hW
      · rw [List.mem_singleton] at hM
        exact Or.inr (Or.inr (Or.inr (Or.inr (Or.inl (by rw [hM])))))
      · obtain ⟨kv, _, hkv⟩ := List.mem_map.mp hW
        exact Or.inr (Or.inr (Or.inr (Or.inr (Or.inr (Or.inl
          ⟨String.mk (gemini_stem kv.1.data) ++ ".toml", by rw [← hkv]; rfl⟩)))))
  · unfold sync_copilot_writes at hP
    rcases List.mem_append.mp hP with hM | hW
    · rw [List.mem_singleton] at hM
      exact Or.inr (Or.inr (Or.inr (Or.inr (Or.inr (Or.inr (Or.inl (by rw [hM])))))))
    · obtain ⟨kv, _, hkv⟩ := List.mem_map.mp hW
      exact Or.inr (Or.inr (Or.inr (Or.inr (Or.inr (Or.inr (Or.inr
        ⟨String.mk (gemini_stem kv.1.data) ++ ".prompt.md", by rw [← hkv]; rfl⟩))))))

/-- No projector write path looks like a source rule or source workflow. -/
theorem bridge_writes_not_src (r w : List (String × List Char)) :
    ∀ pr ∈ bridge_writes r w,
      matchesRGlobMd kittifyMemory pr.1 = false ∧
        matchesRGlobMd windsurfWorkflows pr.1 = false := by
  intro pr hpr
  rcases bridge_writes_shape r w pr hpr with ⟨x, hx⟩ | ⟨x, hx⟩ | hx | ⟨x, hx⟩ |
      hx | ⟨x, hx⟩ | hx | ⟨x, hx⟩ <;> rw [hx] <;> exact ⟨rfl, rfl⟩

theorem bridge_dirs (cfg : Option (List Char) → List Char) (fs : FS) :
    (bridge_main cfg fs).dirs = (setup_directories fs).dirs := by
  unfold bridge_main
  by_cases hc : (ingest_workflows (setup_directories fs)).1 = [] ∧
      (ingest_rules (setup_directories fs)).1 = []
  · rw [if_pos hc]
  · rw [if_neg hc]
    show (writeText (applyWrites (setup_directories fs) _) configPath _).dirs = _
    rw [writeText_dirs, applyWrites_dirs]

theorem bridge_files_rules_src (cfg : Option (List Char) → List Char) (fs : FS) :
    (bridge_main cfg fs).files.filter (fun e => matchesRGlobMd kittifyMemory e.path)
      = fs.files.filter (fun e => matchesRGlobMd kittifyMemory e.path) := by
  unfold bridge_main
  by_cases hc : (ingest_workflows (setup_directories fs)).1 = [] ∧
      (ingest_rules (setup_directories fs)).1 = []
  · rw [if_pos hc]
    exact setup_filter_src fs kittifyMemory (by decide) (by decide) (by decide) (by decide)
      (by decide) (by decide) (by decide) (by decide)
  · rw [if_neg hc,
      filter_writeText _ _ _ _ (fun e he => by
        show matchesRGlobMd kittifyMemory e.path = false
        rw [he]
        decide),
      filter_applyWrites _ _ (fun w hw e he => by
        show matchesRGlobMd kittifyMemory e.path = false
        rw [he]
        exact (bridge_writes_not_src _ _ w hw).1)]
    exact setup_filter_src fs kittifyMemory (by decide) (by decide) (by decide) (by decide)
      (by decide) (by decide) (by decide) (by decide)

theorem bridge_files_wf_src (cfg : Option (List Char) → List Char) (fs : FS) :
    (bridge_main cfg fs).files.filter (fun e => matchesRGlobMd windsurfWorkflows e.path)
      = fs.files.filter (fun e => matchesRGlobMd windsurfWorkflows e.path) := by
  unfold bridge_main
  by_cases hc : (ingest_workflows (setup_directories fs)).1 = [] ∧
      (ingest_rules (setup_directories fs)).1 = []
  · rw [if_pos hc]
    exact setup_filter_src fs windsurfWorkflows (by decide) (by decide) (by decide) (by decide)
      (by decide) (by decide) (by decide) (by decide)
  · rw [if_neg hc,
      filter_writeText _ _ _ _ (fun e he => by
        show matchesRGlobMd windsurfWorkflows e.path = false
        rw [he]
        decide),
      filter_applyWrites _ _ (fun w hw e he => by
        show matchesRGlobMd windsurfWorkflows e.path = false
        rw [he]
        exact (bridge_writes_not_src _ _ w hw).2)]
    exact setup_filter_src fs windsurfWorkflows (by decide) (by decide) (by decide) (by decide)
      (by decide) (by decide) (by decide) (by decide)

theorem ingest_rules_congr {fs1 fs2 : FS}
    (hd : (kittifyMemory ∈ fs1.dirs) ↔ (kittifyMemory ∈ fs2.dirs))
    (hf : fs1.files.filter (fun e => matchesRGlobMd kittifyMemory e.path)
        = fs2.files.filter (fun e => matchesRGlobMd kittifyMemory e.path)) :
    ingest_rules fs1 = ingest_rules fs2 := by
  unfold ingest_rules
  by_cases h : kittifyMemory ∈ fs2.dirs
  · rw [if_pos (hd.mpr h), if_pos h, hf]
  · rw [if_neg (fun hh => h (hd.mp hh)), if_neg h]

theorem ingest_workflows_congr {fs1 fs2 : FS}
    (hd : (windsurfWorkflows ∈ fs1.dirs) ↔ (windsurfWorkflows ∈ fs2.dirs))
    (hf : fs1.files.filter (fun e => matchesRGlobMd windsurfWorkflows e.path)
        = fs2.files.filter (fun e => matchesRGlobMd windsurfWorkflows e.path)) :
    ingest_workflows fs1 = ingest_workflows fs2 := by
  unfold ingest_workflows
  by_cases h : windsurfWorkflows ∈ fs2.dirs
  · rw [if_pos (hd.mpr h), if_pos h, hf]
  · rw [if_neg (fun hh => h (hd.mp hh)), if_neg h]

/-- The sources a second run sees are the sources the first run saw. -/
theorem ingest_rules_stable (cfg : Option (List Char) → List Char) (fs : FS) :
    ingest_rules (setup_directories (bridge_main cfg fs))
      = ingest_rules (setup_directories fs) := by
  apply ingest_rules_congr
  · exact ((setup_dirs_src (bridge_main cfg fs) kittifyMemory (by decide) (by decide)
      (by decide) (by decide) (by decide) (by decide) (by decide) (by decide)
      (by decide)).trans
        ((by rw [bridge_dirs]) : kittifyMemory ∈ (bridge_main cfg fs).dirs ↔
          kittifyMemory ∈ (setup_directories fs).dirs))
  · exact ((setup_filter_src (bridge_main cfg fs) kittifyMemory (by decide) (by decide)
      (by decide) (by decide) (by decide) (by decide) (by decide) (by decide)).trans
        (bridge_files_rules_src cfg fs)).trans
      (setup_filter_src fs kittifyMemory (by decide) (by decide) (by decide) (by decide)
        (by decide) (by decide) (by decide) (by decide)).symm

theorem ingest_workflows_stable (cfg : Option (List Char) → List Char) (fs : FS) :
    ingest_workflows (setup_directories (bridge_main cfg fs))
      = ingest_workflows (setup_directories fs) := by
  apply ingest_workflows_congr
  · exact ((setup_dirs_src (bridge_main cfg fs) windsurfWorkflows (by decide) (by decide)
      (by decide) (by decide) (by decide) (by decide) (by decide) (by decide)
      (by decide)).trans
        ((by rw [bridge_dirs]) : windsurfWorkflows ∈ (bridge_main cfg fs).dirs ↔
          windsurfWorkflows ∈ (setup_directories fs).dirs))
  · exact ((setup_filter_src (bridge_main cfg fs) windsurfWorkflows (by decide) (by decide)
      (by decide) (by decide) (by decide) (by decide) (by decide) (by decide)).trans
        (bridge_files_wf_src cfg fs)).trans
      (setup_filter_src fs windsurfWorkflows (by decide) (by decide) (by decide) (by decide)
        (by decide) (by decide) (by decide) (by decide)).symm

/-- The paths where target artifacts live: the four per-file directories,
the rules directory, and the three monolithic documents. -/
def underTargets (p : FSPath) : Prop :=
  agentRules <+: p ∨ agentWorkflows <+: p ∨ claudeCommands <+: p ∨
  geminiCommands <+: p ∨ githubPrompts <+: p ∨
  p = [".claude", "CLAUDE.md"] ∨ p = ["GEMINI.md"] ∨
  p = [".github", "copilot-instructions.md"]

theorem underTargets_facts {p : FSPath} (hp : underTargets p)
    (hgen : ¬ (agentWorkflows <+: p ∨ claudeCommands <+: p ∨
      geminiCommands <+: p ∨ githubPrompts <+: p)) :
    ¬ agentWorkflows <+: p ∧ ¬ claudeCommands <+: p ∧ ¬ geminiCommands <+: p ∧
      ¬ githubPrompts <+: p ∧ p ≠ configPath := by
  refine ⟨fun h => hgen (Or.inl h), fun h => hgen (Or.inr (Or.inl h)),
    fun h => hgen (Or.inr (Or.inr (Or.inl h))),
    fun h => hgen (Or.inr (Or.inr (Or.inr h))), ?_⟩
  rcases hp with h | h | h | h | h | h | h | h
  · intro he
    rw [he] at h
    exact absurd h (by decide)
  · exact (hgen (Or.inl h)).elim
  · exact (hgen (Or.inr (Or.inl h))).elim
  · exact (hgen (Or.inr (Or.inr (Or.inl h)))).elim
  · exact (hgen (Or.inr (Or.inr (Or.inr h)))).elim
  · exact fun he => absurd (h.symm.trans he) (by decide)
  · exact fun he => absurd (h.symm.trans he) (by decide)
  · exact fun he => absurd (h.symm.trans he) (by decide)

/-- When both ingested mappings are empty the run is just the setup pass. -/
theorem bridge_main_empty (cfg : Option (List Char) → List Char) (fs : FS)
    (hc : (ingest_workflows (setup_directories fs)).1 = [] ∧
      (ingest_rules (setup_directories fs)).1 = []) :
    bridge_main cfg fs = setup_directories fs := by
  unfold bridge_main
  rw [if_pos hc]

/-- One projection run, at any non-generated target path: either the path was
written (and holds the last write) or it kept its prior content. -/
theorem fileAt_bridge_else (cfg : Option (List Char) → List Char) (fs : FS) (p : FSPath)
    (hc : ¬ ((ingest_workflows (setup_directories fs)).1 = [] ∧
      (ingest_rules (setup_directories fs)).1 = []))
    (hnp : p ≠ configPath) :
    fileAt (bridge_main cfg fs) p =
      (match lookupLast (bridge_writes (ingest_rules (setup_directories fs)).1
          (ingest_workflows (setup_directories fs)).1) p with
       | some c => some ⟨p, c, true⟩
       | none => fileAt (setup_directories fs) p) := by
  unfold bridge_main
  rw [if_neg hc, fileAt_writeText, if_neg hnp, fileAt_applyWrites]

/-- Double-run stability of the tree at every target path. -/
theorem bridge_run_twice (cfg : Option (List Char) → List Char) (fs : FS) (p : FSPath)
    (hp : underTargets p) :
    fileAt (bridge_main cfg (bridge_main cfg fs)) p = fileAt (bridge_main cfg fs) p := by
  by_cases hgen : agentWorkflows <+: p ∨ claudeCommands <+: p ∨
      geminiCommands <+: p ∨ githubPrompts <+: p
  case pos =>
    -- generated paths: both runs clean them, then both write the same set
    by_cases hc : (ingest_workflows (setup_directories fs)).1 = [] ∧
        (ingest_rules (setup_directories fs)).1 = []
    · have hc2 : (ingest_workflows (setup_directories (bridge_main cfg fs))).1 = [] ∧
          (ingest_rules (setup_directories (bridge_main cfg fs))).1 = [] := by
        rw [ingest_rules_stable, ingest_workflows_stable]
        exact hc
      have h1 := bridge_main_empty cfg fs hc
      have h2 := bridge_main_empty cfg (bridge_main cfg fs) hc2
      rw [h2, h1, fileAt_setup_none hgen, fileAt_setup_none hgen]
    · have hc2 : ¬ ((ingest_workflows (setup_directories (bridge_main cfg fs))).1 = [] ∧
          (ingest_rules (setup_directories (bridge_main cfg fs))).1 = []) := by
        rw [ingest_rules_stable, ingest_workflows_stable]
        exact hc
      have hnp : p ≠ configPath := by
        rcases hgen with h | h | h | h <;>
          exact fun he => absurd (he ▸ h) (by decide)
      rw [fileAt_bridge_else cfg (bridge_main cfg fs) p hc2 hnp,
        fileAt_bridge_else cfg fs p hc hnp, ingest_rules_stable, ingest_workflows_stable]
      cases hl : lookupLast (bridge_writes (ingest_rules (setup_directories fs)).1
          (ingest_workflows (setup_directories fs)).1) p with
      | some c => rfl
      | none =>
        show fileAt (setup_directories (bridge_main cfg fs)) p
          = fileAt (setup_directories fs) p
        rw [fileAt_setup_none hgen, fileAt_setup_none hgen]
  case neg =>
    obtain ⟨hn1, hn2, hn3, hn4, hncfg⟩ := underTargets_facts hp hgen
    by_cases hc : (ingest_workflows (setup_directories fs)).1 = [] ∧
        (ingest_rules (setup_directories fs)).1 = []
    · have hc2 : (ingest_workflows (setup_directories (bridge_main cfg fs))).1 = [] ∧
          (ingest_rules (setup_directories (bridge_main cfg fs))).1 = [] := by
        rw [ingest_rules_stable, ingest_workflows_stable]
        exact hc
      have h1 := bridge_main_empty cfg fs hc
      have h2 := bridge_main_empty cfg (bridge_main cfg fs) hc2
      rw [h2, fileAt_setup hn1 hn2 hn3 hn4]
    · have hc2 : ¬ ((ingest_workflows (setup_directories (bridge_main cfg fs))).1 = [] ∧
          (ingest_rules (setup_directories (bridge_main cfg fs))).1 = []) := by
        rw [ingest_rules_stable, ingest_workflows_stable]
        exact hc
      rw [fileAt_bridge_else cfg (bridge_main cfg fs) p hc2 hncfg,
        fileAt_bridge_else cfg fs p hc hncfg, ingest_rules_stable, ingest_workflows_stable]
      cases hl : lookupLast (bridge_writes (ingest_rules (setup_directories fs)).1
          (ingest_workflows (setup_directories fs)).1) p with
      | some c => rfl
      | none =>
        show fileAt (setup_directories (bridge_main cfg fs)) p
          = fileAt (setup_directories fs) p
        rw [fileAt_setup hn1 hn2 hn3 hn4, fileAt_bridge_else cfg fs p hc hncfg, hl]

/-- The geometric side conditions hold for the RULES marker pair. -/
theorem rulesSpec : MarkerSpec rulesStart rulesEnd rulesHeader := by
  constructor <;> decide

/-- The geometric side conditions hold for the SKILLS marker pair. -/
theorem skillsSpec : MarkerSpec skillsStart skillsEnd skillsHeader := by
  constructor <;> decide

/-- C6 (amended): running the projection pass twice with unchanged source
trees yields identical file content at every target path (per-file
directories, the rules directory, and the three monolithic documents); and
the marker-region update of sync_rules.py / sync_skills.py is idempotent on
marker-well-formed targets when the injected content is marker-free.
Without the well-formedness hypothesis idempotence fails
(C6_counterexample). -/
theorem C6_theorem (cfg : Option (List Char) → List Char) (fs : FS) (p : FSPath)
    (hp : underTargets p) (orig orig2 content content2 : List Char)
    (hwfR : MarkerWF rulesStart rulesEnd orig)
    (hrs : countOcc content rulesStart = 0) (hre : countOcc content rulesEnd = 0)
    (hwfS : MarkerWF skillsStart skillsEnd orig2)
    (hss : countOcc content2 skillsStart = 0) (hse : countOcc content2 skillsEnd = 0) :
    fileAt (bridge_main cfg (bridge_main cfg fs)) p = fileAt (bridge_main cfg fs) p ∧
    rules_update_file (rules_update_file orig content) content
      = rules_update_file orig content ∧
    skills_update_file (skills_update_file orig2 content2) content2
      = skills_update_file orig2 content2 :=
  ⟨bridge_run_twice cfg fs p hp,
   update_file_idem rulesStart rulesEnd rulesHeader orig content rulesSpec hwfR hrs hre,
   update_file_idem skillsStart skillsEnd skillsHeader orig2 content2 skillsSpec hwfS hss hse⟩

theorem C6_witness :
    fileAt (bridge_main (fun _ => []) (bridge_main (fun _ => []) ⟨[], []⟩)) ["GEMINI.md"]
        = fileAt (bridge_main (fun _ => []) ⟨[], []⟩) ["GEMINI.md"] ∧
    rules_update_file (rules_update_file [] (toL "x")) (toL "x")
        = rules_update_file [] (toL "x") ∧
    skills_update_file (skills_update_file [] (toL "x")) (toL "x")
        = skills_update_file [] (toL "x") :=
  C6_theorem (fun _ => []) ⟨[], []⟩ ["GEMINI.md"]
    (Or.inr (Or.inr (Or.inr (Or.inr (Or.inr (Or.inr (Or.inl rfl)))))))
    [] [] (toL "x") (toL "x")
    (Or.inl ⟨by decide, by decide⟩) (by decide) (by decide)
    (Or.inl ⟨by decide, by decide⟩) (by decide) (by decide)

set_option maxRecDepth 4000 in
/-- C6 counterexample: on a target whose end marker precedes its start
marker, applying update_file twice with the same content does not reproduce
the once-updated file — the claim's unconditional idempotence is false. -/
theorem C6_counterexample :
    rules_update_file (rules_update_file (rulesEnd ++ rulesStart) []) []
      ≠ rules_update_file (rulesEnd ++ rulesStart) [] := by
  decide

/-- C7 (amended): for either marker kind (RULES of sync_rules.py, SKILLS of
sync_skills.py), updating a marker-well-formed target with marker-free
content yields a file with exactly one start and one end marker forming the
injected block; in replacement mode the text before the start marker and
after the end marker is unchanged, and when the markers are absent the block
is appended at the end after a blank line. With content that itself contains
a marker the exactly-one invariant breaks (C7_counterexample). -/
theorem C7_theorem (ms me hdr orig content : List Char)
    (hk : (ms = rulesStart ∧ me = rulesEnd ∧ hdr = rulesHeader) ∨
      (ms = skillsStart ∧ me = skillsEnd ∧ hdr = skillsHeader))
    (hwf : MarkerWF ms me orig)
    (hcms : countOcc content ms = 0) (hcme : countOcc content me = 0) :
    ∃ a b, update_file ms me hdr orig content
        = a ++ (ms ++ (hdr ++ (content ++ (toL "\n" ++ (me ++ b))))) ∧
      countOcc (update_file ms me hdr orig content) ms = 1 ∧
      countOcc (update_file ms me hdr orig content) me = 1 ∧
      ((∃ m2, orig = a ++ (ms ++ (m2 ++ (me ++ b)))) ∨
        (¬ ms <:+: orig ∧ ¬ me <:+: orig ∧ a = orig ++ toL "\n\n" ∧ b = [])) := by
  rcases hk with ⟨h1, h2, h3⟩ | ⟨h1, h2, h3⟩ <;> subst h1 <;> subst h2 <;> subst h3
  · exact update_file_normal _ _ _ orig content rulesSpec hwf hcms hcme
  · exact update_file_normal _ _ _ orig content skillsSpec hwf hcms hcme

theorem C7_witness :
    ∃ a b, update_file rulesStart rulesEnd rulesHeader [] (toL "hi")
        = a ++ (rulesStart ++ (rulesHeader ++ (toL "hi" ++ (toL "\n" ++ (rulesEnd ++ b))))) ∧
      countOcc (update_file rulesStart rulesEnd rulesHeader [] (toL "hi")) rulesStart = 1 ∧
      countOcc (update_file rulesStart rulesEnd rulesHeader [] (toL "hi")) rulesEnd = 1 ∧
      ((∃ m2, ([] : List Char) = a ++ (rulesStart ++ (m2 ++ (rulesEnd ++ b)))) ∨
        (¬ rulesStart <:+: ([] : List Char) ∧ ¬ rulesEnd <:+: ([] : List Char) ∧
          a = [] ++ toL "\n\n" ∧ b = [])) :=
  C7_theorem rulesStart rulesEnd rulesHeader [] (toL "hi") (Or.inl ⟨rfl, rfl, rfl⟩)
    (Or.inl ⟨by decide, by decide⟩) (by decide) (by decide)

set_option maxRecDepth 4000 in
/-- C7 counterexample: a marker-free target (at most one pair trivially)
updated with content that contains the start marker ends up with two start
markers, so the at-most-one-pair invariant is not preserved for arbitrary
content. -/
theorem C7_counterexample :
    countOcc (rules_update_file [] rulesStart) rulesStart = 2 := by
  decide

/-! ### The integrity verifier (verify_bridge_integrity.py) -/

/-- The errors the verifier can record (log_error call sites). -/
inductive VErr
  | missing (p : FSPath)
  | mismatch (p : FSPath) (expected : List Char)
  | unreadableTarget (p : FSPath)
deriving DecidableEq

/-- The verifier's accumulated log. -/
structure VState where
  errors : List VErr
  warnings : List Warn
deriving DecidableEq

/-- `Verifier.check_file_exists` (lines 43-47). -/
def check_file_exists (fs : FS) (v : VState) (p : FSPath) : VState × Bool :=
  match fileAt fs p with
  | some _ => (v, true)
  | none => ({ v with errors := v.errors ++ [VErr.missing p] }, false)

/-- `Verifier.check_content` (lines 49-59): a missing file is silently false,
an unreadable file logs a read error, a readable file logs a mismatch when
the expected substring is absent. -/
def check_content (fs : FS) (v : VState) (p : FSPath) (expected : List Char) :
    VState × Bool :=
  match fileAt fs p with
  | none => (v, false)
  | some e =>
    if e.readable then
      if containsB e.content expected then (v, true)
      else ({ v with errors := v.errors ++ [VErr.mismatch p expected] }, false)
    else ({ v with errors := v.errors ++ [VErr.unreadableTarget p] }, false)

/-- Non-recursive `d.glob("*.md")`: direct children with an `.md` name. -/
def matchesGlobMd (d : FSPath) (p : FSPath) : Bool :=
  d.isPrefixOf p && decide (p.length = d.length + 1) &&
    (match p.getLast? with
     | some name => (toL ".md").isSuffixOf name.data
     | none => false)

/-- Line 69: `KITTIFY_DIR.glob("memory/*.md")` guarded by `.exists()`. -/
def vRulesSource (fs : FS) : List FSEntry :=
  if [".kittify"] ∈ fs.dirs then
    fs.files.filter (fun e => matchesGlobMd kittifyMemory e.path)
  else []

/-- Line 70: `WINDSURF_DIR.glob("workflows/*.md")` guarded by `.exists()`. -/
def vWorkflowsSource (fs : FS) : List FSEntry :=
  if [".windsurf"] ∈ fs.dirs then
    fs.files.filter (fun e => matchesGlobMd windsurfWorkflows e.path)
  else []

/-- One workflow-loop body: check the target exists, then (only then) read
the SOURCE file — this read sits outside any try/except, so an unreadable
source CRASHES the verifier (second component false) — and run the
conditional content checks. -/
def wf_step (fs : FS) (target : FSPath) (checks : List (List Char × List Char))
    (wf : FSEntry) (v : VState) : VState × Bool :=
  match check_file_exists fs v target with
  | (v2, false) => (v2, true)
  | (v2, true) =>
    if wf.readable then
      (checks.foldl (fun acc ck =>
        if containsB wf.content ck.1 then (check_content fs acc target ck.2).1
        else acc) v2, true)
    else (v2, false)

/-- A workflow loop over one target kind; aborts on crash. -/
def wf_loop (fs : FS) (t : Target) (checks : List (List Char × List Char)) :
    List FSEntry → VState → VState × Bool
  | [], v => (v, true)
  | wf :: rest, v =>
    match wf_step fs (verif_workflow_path t (fsName wf.path)) checks wf v with
    | (v2, true) => wf_loop fs t checks rest v2
    | (v2, false) => (v2, false)

/-- Lines 90-92: existence of each projected rule under .agent/rules. -/
def rules_loop (fs : FS) : List FSEntry → VState → VState
  | [], v => v
  | r :: rest, v =>
    rules_loop fs rest (check_file_exists fs v [".agent", "rules", fsName r.path]).1

/-- The `if rules_source:` monolithic-document existence checks. -/
def checkIfRules (fs : FS) (p : FSPath) (v : VState) : VState :=
  if vRulesSource fs = [] then v else (check_file_exists fs v p).1

/-- Sequence two crash-carrying stages. -/
def andThen (r : VState × Bool) (f : VState → VState × Bool) : VState × Bool :=
  if r.2 then f r.1 else r

/-- verify_bridge_integrity.py `main` (lines 61-134) up to the report: the
final state and whether the run completed (false = crashed on an unreadable
source). -/
def run_verifier (fs : FS) : VState × Bool :=
  andThen (wf_loop fs Target.antigravity [(actorTok, toL "--actor \"antigravity\"")]
      (vWorkflowsSource fs)
      ⟨[], (if vRulesSource fs = [] then [Warn.noSourceRules] else []) ++
        (if vWorkflowsSource fs = [] then [Warn.noSourceWorkflows] else [])⟩)
    (fun v1 =>
      andThen (wf_loop fs Target.claude [(actorTok, toL "--actor \"claude\"")]
          (vWorkflowsSource fs)
          (checkIfRules fs [".claude", "CLAUDE.md"]
            (rules_loop fs (vRulesSource fs) v1)))
        (fun v2 =>
          andThen (wf_loop fs Target.gemini
              [(actorTok, toL "--actor \"gemini\""), (argsTok, argsRep)]
              (vWorkflowsSource fs) (checkIfRules fs ["GEMINI.md"] v2))
            (fun v3 =>
              wf_loop fs Target.copilot [(actorTok, toL "--actor \"copilot\"")]
                (vWorkflowsSource fs)
                (checkIfRules fs [".github", "copilot-instructions.md"] v3))))

/-- Lines 136-146 — and an unhandled exception also ends the process with a
nonzero exit status. -/
def verifier_exit_failure (fs : FS) : Bool :=
  !(run_verifier fs).2 || !(run_verifier fs).1.errors.isEmpty

/-- C8 (amended): for every run of the integrity verifier that completes
without crashing, the exit status is failure exactly when at least one error
was recorded; warnings never cause failure. (A run can instead crash on an
unreadable source workflow and fail with no recorded error:
C8_counterexample.) -/
theorem C8_theorem (fs : FS) (hdone : (run_verifier fs).2 = true) :
    verifier_exit_failure fs = true ↔ (run_verifier fs).1.errors ≠ [] := by
  unfold verifier_exit_failure
  rw [hdone]
  cases herr : (run_verifier fs).1.errors <;> simp [herr]

theorem C8_witness :
    (run_verifier ⟨[], []⟩).2 = true ∧
    (verifier_exit_failure ⟨[], []⟩ = true ↔ (run_verifier ⟨[], []⟩).1.errors ≠ []) :=
  ⟨rfl, C8_theorem ⟨[], []⟩ rfl⟩

/-- C8 counterexample: one source workflow that does not decode, whose
projected target exists. The verifier confirms the target, then reads the
source outside any try/except and crashes: the process exits with failure
although the recorded error list is empty. -/
theorem C8_counterexample :
    verifier_exit_failure ⟨[⟨[".windsurf", "workflows", "w.md"], toL "x", false⟩,
        ⟨[".agent", "workflows", "w.md"], toL "x", true⟩], [[".windsurf"]]⟩ = true ∧
    (run_verifier ⟨[⟨[".windsurf", "workflows", "w.md"], toL "x", false⟩,
        ⟨[".agent", "workflows", "w.md"], toL "x", true⟩], [[".windsurf"]]⟩).1.errors
      = [] := by
  exact ⟨rfl, rfl⟩

/-! ### The config registrar (update_kittify_config, lines 226-279) -/

/-- A parsed YAML value, as far as the registrar inspects it. -/
inductive YVal where
  | vstr (s : String)
  | vlist (l : List YVal)
  | vdict (d : List (String × YVal))
  | vother

/-- Python dict lookup. -/
def dictGet (d : List (String × YVal)) (k : String) : Option YVal :=
  (d.find? (fun kv => kv.1 == k)).map (fun kv => kv.2)

/-- Python dict assignment: update in place, or append a new key. -/
def dictSet (d : List (String × YVal)) (k : String) (v : YVal) :
    List (String × YVal) :=
  if d.any (fun kv => kv.1 == k) then
    d.map (fun kv => if kv.1 = k then (k, v) else kv)
  else d ++ [(k, v)]

/-- Line 233. -/
def all_agents : List String := ["windsurf", "claude", "antigravity", "gemini", "copilot"]

/-- `agent == s` for a YAML list element (a non-string never equals a str). -/
def isStrB (s : String) (a : YVal) : Bool :=
  match a with
  | YVal.vstr t => t == s
  | _ => false

/-- Lines 251-254: keep pre-existing entries that name a supported agent. -/
def keepSupported (cur : List YVal) : List YVal :=
  cur.filter (fun a =>
    match a with
    | YVal.vstr s => all_agents.contains s
    | _ => false)

/-- Lines 256-259 generalized over the scanned name list. -/
def addMissingL (l : List String) (kept : List YVal) : List YVal :=
  l.foldl (fun acc s => if acc.any (isStrB s) then acc else acc ++ [YVal.vstr s]) kept

/-- Lines 256-259. -/
def addMissing (kept : List YVal) : List YVal := addMissingL all_agents kept

/-- Lines 265-269. -/
def selectionDefault : YVal :=
  YVal.vdict [("strategy", YVal.vstr "preferred"),
    ("preferred_implementer", YVal.vstr "claude"),
    ("preferred_reviewer", YVal.vstr "claude")]

/-- Lines 243-245. -/
def ensureAgents (config : List (String × YVal)) : List (String × YVal) :=
  if (dictGet config "agents").isSome then config
  else dictSet config "agents" (YVal.vdict [])

/-- Line 248: `.get('available', [])`; a non-list value makes the later loop
raise, which the registrar's blanket except turns into "config unchanged". -/
def currentAvailable (ad : List (String × YVal)) : Option (List YVal) :=
  match dictGet ad "available" with
  | none => some []
  | some (YVal.vlist l) => some l
  | some _ => none

/-- Lines 263-269. -/
def ensureSelection (ad : List (String × YVal)) : List (String × YVal) :=
  if (dictGet ad "selection").isSome then ad
  else dictSet ad "selection" selectionDefault

/-- The try-block of update_kittify_config on an already-parsed config;
`none` is an exception propagating to the blanket except handler. -/
def updateAgents (config : List (String × YVal)) : Option (List (String × YVal)) :=
  match dictGet (ensureAgents config) "agents" with
  | some (YVal.vdict ad) =>
    (match currentAvailable ad with
     | some cur =>
       some (dictSet (ensureAgents config) "agents" (YVal.vdict
         (ensureSelection
           (dictSet ad "available" (YVal.vlist (addMissing (keepSupported cur)))))))
     | none => none)
  | _ => none

/-- update_kittify_config (lines 226-279): on any exception the file is left
unchanged. -/
def update_kittify_config (config : List (String × YVal)) : List (String × YVal) :=
  match updateAgents config with
  | some c => c
  | none => config

/-- The string entries of agents.available, for observing the result. -/
def availNames (config : List (String × YVal)) : List String :=
  match dictGet config "agents" with
  | some (YVal.vdict ad) =>
    (match dictGet ad "available" with
     | some (YVal.vlist l) =>
       l.filterMap (fun a => match a with | YVal.vstr s => some s | _ => none)
     | _ => [])
  | _ => []

theorem dictGet_set_self (d : List (String × YVal)) (k : String) (v : YVal) :
    dictGet (dictSet d k v) k = some v := by
  unfold dictSet
  by_cases hany : d.any (fun kv => kv.1 == k) = true
  · rw [if_pos hany]
    unfold dictGet
    induction d with
    | nil => simp at hany
    | cons e t ih =>
      rw [List.map_cons]
      by_cases hp : e.1 = k
      · rw [if_pos hp, List.find?_cons_of_pos _ (by simp)]
        rfl
      · rw [if_neg hp, List.find?_cons_of_neg _ (by simp [hp])]
        apply ih
        simp only [List.any_cons, Bool.or_eq_true] at hany
        rcases hany with h | h
        · exact absurd (eq_of_beq h) hp
        · exact h
  · rw [if_neg hany]
    unfold dictGet
    induction d with
    | nil => simp
    | cons e t ih =>
      have hp : ¬ e.1 = k := by
        intro h
        exact hany (by simp [List.any_cons, h])
      rw [List.cons_append, List.find?_cons_of_neg _ (by simp [hp])]
      exact ih (fun h => hany (by simp only [List.any_cons, Bool.or_eq_true]; exact Or.inr h))

theorem dictGet_set_other (d : List (String × YVal)) (k k2 : String) (v : YVal)
    (hne : k2 ≠ k) : dictGet (dictSet d k v) k2 = dictGet d k2 := by
  unfold dictSet
  by_cases hany : d.any (fun kv => kv.1 == k) = true
  · rw [if_pos hany]
    clear hany
    unfold dictGet
    induction d with
    | nil => rfl
    | cons e t ih =>
      rw [List.map_cons]
      by_cases hp : e.1 = k
      · rw [if_pos hp, List.find?_cons_of_neg _ (by simp only [beq_iff_eq]; exact Ne.symm hne),
          List.find?_cons_of_neg _ (by simp only [beq_iff_eq, hp]; exact Ne.symm hne)]
        exact ih
      · rw [if_neg hp]
        by_cases hek : e.1 = k2
        · rw [List.find?_cons_of_pos _ (by simp [hek]), List.find?_cons_of_pos _ (by simp [hek])]
        · rw [List.find?_cons_of_neg _ (by simp [hek]), List.find?_cons_of_neg _ (by simp [hek])]
          exact ih
  · rw [if_neg hany]
    unfold dictGet
    induction d with
    | nil =>
      rw [List.nil_append, List.find?_cons_of_neg _ (by simp only [beq_iff_eq]; exact Ne.symm hne),
        List.find?_nil]
    | cons e t ih =>
      by_cases hek : e.1 = k2
      · rw [List.cons_append, List.find?_cons_of_pos _ (by simp [hek]),
          List.find?_cons_of_pos _ (by simp [hek])]
      · rw [List.cons_append, List.find?_cons_of_neg _ (by simp [hek]),
          List.find?_cons_of_neg _ (by simp [hek])]
        exact ih (fun h => hany (by simp only [List.any_cons, Bool.or_eq_true]; exact Or.inr h))

theorem ensureSelection_get (d : List (String × YVal)) (k : String)
    (hk : k ≠ "selection") : dictGet (ensureSelection d) k = dictGet d k := by
  unfold ensureSelection
  by_cases h : (dictGet d "selection").isSome = true
  · rw [if_pos h]
  · rw [if_neg h]
    exact dictGet_set_other d "selection" k selectionDefault hk

/-- The add-missing loop is the kept list followed by the not-yet-present
supported names, in their scan order. -/
theorem addMissingL_eq (l : List String) (hnd : l.Nodup) (kept : List YVal) :
    addMissingL l kept
      = kept ++ (l.filter (fun s => !(kept.any (isStrB s)))).map YVal.vstr := by
  induction l generalizing kept with
  | nil =>
    show kept = kept ++ []
    rw [List.append_nil]
  | cons s t ih =>
    show addMissingL t (if kept.any (isStrB s) then kept else kept ++ [YVal.vstr s]) = _
    rw [List.filter_cons]
    by_cases hs : kept.any (isStrB s) = true
    · rw [if_pos hs, if_neg (by simp [hs])]
      exact ih (List.Nodup.of_cons hnd) kept
    · rw [if_neg hs, if_pos (by simp [hs]), List.map_cons]
      rw [ih (List.Nodup.of_cons hnd) (kept ++ [YVal.vstr s])]
      have hsnt : s ∉ t := (List.nodup_cons.mp hnd).1
      have hfe : t.filter (fun s2 => !((kept ++ [YVal.vstr s]).any (isStrB s2)))
          = t.filter (fun s2 => !(kept.any (isStrB s2))) := by
        apply List.filter_congr
        intro s2 hs2
        have hne : s ≠ s2 := fun h => hsnt (h ▸ hs2)
        rw [List.any_append]
        have : List.any [YVal.vstr s] (isStrB s2) = false := by
          simp only [List.any_cons, List.any_nil, Bool.or_false]
          show (s == s2) = false
          exact beq_eq_false_iff_ne.mpr hne
        rw [this, Bool.or_false]
      rw [hfe, List.append_assoc]
      rfl

/-- C1 (amended): when the config has an agents mapping whose available
entry is a list (or absent), the registrar keeps the SUPPORTED pre-existing
entries in their relative order, appends the missing supported names at the
end, and preserves every unrelated top-level key; pre-existing entries that
are not supported agent names are silently dropped (C1_counterexample), so
the claim's "never delete an unknown pre-existing entry" is false. -/
theorem C1_theorem (config ad : List (String × YVal)) (cur : List YVal)
    (hag : dictGet config "agents" = some (YVal.vdict ad))
    (hav : currentAvailable ad = some cur) :
    (∀ k, k ≠ "agents" →
      dictGet (update_kittify_config config) k = dictGet config k) ∧
    (∃ ad2, dictGet (update_kittify_config config) "agents" = some (YVal.vdict ad2) ∧
      dictGet ad2 "available" = some (YVal.vlist
        (keepSupported cur ++
          (all_agents.filter (fun s => !((keepSupported cur).any (isStrB s)))).map
            YVal.vstr))) := by
  have h1 : ensureAgents config = config := by
    unfold ensureAgents
    rw [hag]
    rfl
  have h2 : update_kittify_config config
      = dictSet config "agents" (YVal.vdict
        (ensureSelection
          (dictSet ad "available" (YVal.vlist (addMissing (keepSupported cur)))))) := by
    unfold update_kittify_config updateAgents
    rw [h1, hag]
    show (match (match currentAvailable ad with
      | some cur2 =>
        some (dictSet config "agents" (YVal.vdict
          (ensureSelection
            (dictSet ad "available" (YVal.vlist (addMissing (keepSupported cur2)))))))
      | none => none) with
      | some c => c
      | none => config) = _
    rw [hav]
  constructor
  · intro k hk
    rw [h2]
    exact dictGet_set_other config "agents" k _ hk
  · refine ⟨ensureSelection
      (dictSet ad "available" (YVal.vlist (addMissing (keepSupported cur)))), ?_, ?_⟩
    · rw [h2]
      exact dictGet_set_self config "agents" _
    · rw [ensureSelection_get _ _ (by decide), dictGet_set_self, addMissing,
        addMissingL_eq all_agents (by decide) (keepSupported cur)]

theorem C1_witness :
    (∀ k, k ≠ "agents" →
      dictGet (update_kittify_config [("foo", YVal.vstr "bar"),
        ("agents", YVal.vdict [("available", YVal.vlist [YVal.vstr "claude"])])]) k
      = dictGet [("foo", YVal.vstr "bar"),
        ("agents", YVal.vdict [("available", YVal.vlist [YVal.vstr "claude"])])] k) ∧
    (∃ ad2, dictGet (update_kittify_config [("foo", YVal.vstr "bar"),
        ("agents", YVal.vdict [("available", YVal.vlist [YVal.vstr "claude"])])]) "agents"
        = some (YVal.vdict ad2) ∧
      dictGet ad2 "available" = some (YVal.vlist
        (keepSupported [YVal.vstr "claude"] ++
          (all_agents.filter
            (fun s => !((keepSupported [YVal.vstr "claude"]).any (isStrB s)))).map
              YVal.vstr))) :=
  C1_theorem [("foo", YVal.vstr "bar"),
      ("agents", YVal.vdict [("available", YVal.vlist [YVal.vstr "claude"])])]
    [("available", YVal.vlist [YVal.vstr "claude"])] [YVal.vstr "claude"] rfl rfl

/-- C1 counterexample: a pre-existing entry "cursor" (not a supported target
name) is present before the registrar runs and absent afterwards — the
registrar deletes unknown entries instead of preserving them. -/
theorem C1_counterexample :
    "cursor" ∈ availNames [("agents", YVal.vdict [("available",
        YVal.vlist [YVal.vstr "cursor", YVal.vstr "claude"])])] ∧
    "cursor" ∉ availNames (update_kittify_config [("agents", YVal.vdict [("available",
        YVal.vlist [YVal.vstr "cursor", YVal.vstr "claude"])])]) := by
  exact ⟨by decide, by decide⟩

/-! ### Description extraction (C4) -/

/-- The spec's words: strip ONE layer of enclosing double quotes. -/
def stripOneQuoteLayer (l : List Char) : List Char :=
  if 2 ≤ l.length ∧ l.head? = some '\"' ∧ l.getLast? = some '\"' then
    (l.drop 1).dropLast
  else l

/-- An occurrence of `---` starting before the end of `fm` lies inside the
window `fm ++ "--"`. -/
theorem desc_marker_window {fm rest t : List Char} {j : Nat} (hj : j < fm.length)
    (ht : toL "---" ++ t = (fm ++ (toL "---" ++ rest)).drop j) :
    (toL "---") <:+: (fm ++ toL "--") := by
  have hl : fm ++ (toL "---" ++ rest)
      = (fm ++ (toL "---" ++ rest)).take j ++ (toL "---" ++ t) := by
    rw [ht, List.take_append_drop]
  have hlenj : ((fm ++ (toL "---" ++ rest)).take j).length = j := by
    rw [List.length_take]
    have h2 : j ≤ (fm ++ (toL "---" ++ rest)).length := by
      rw [List.length_append]
      omega
    omega
  have hfm2 : fm ++ toL "--" = (fm ++ (toL "---" ++ rest)).take (fm.length + 2) := by
    rw [show fm.length + 2 = fm.length + 2 from rfl, List.take_append]
    rfl
  have hstep : (fm ++ (toL "---" ++ rest)).take (fm.length + 2)
      = (fm ++ (toL "---" ++ rest)).take j
        ++ (toL "---" ++ t).take (fm.length + 2 - j) := by
    conv_lhs => rw [hl]
    rw [show fm.length + 2
        = ((fm ++ (toL "---" ++ rest)).take j).length + (fm.length + 2 - j) from by
      rw [hlenj]
      omega]
    rw [List.take_append, hlenj,
      show j + (fm.length + 2 - j) - j = fm.length + 2 - j from by omega]
  have h3 : (toL "---" ++ t).take (fm.length + 2 - j)
      = toL "---" ++ t.take (fm.length + 2 - j - 3) := by
    rw [show fm.length + 2 - j = (toL "---").length + (fm.length + 2 - j - 3) from by
      show fm.length + 2 - j = 3 + (fm.length + 2 - j - 3)
      omega]
    rw [List.take_append,
      show (toL "---").length + (fm.length + 2 - j - 3) - 3 = fm.length + 2 - j - 3 from by
        show 3 + (fm.length + 2 - j - 3) - 3 = fm.length + 2 - j - 3
        omega]
  rw [hfm2, hstep, h3]
  exact infixAppR _ (infixAppL _ List.infix_rfl)

/-- C4 (amended): for a text of the form `---<fm>---<rest>` whose block `fm`
contains no (possibly overlapping) occurrence of the marker, the derived
description is the remainder after the first colon of the first line of `fm`
starting with `description:`, with surrounding whitespace and ALL enclosing
double-quote characters stripped (the code's strip('"'), not one layer); and
in the three fallback situations (no leading marker, no closing marker, no
description line) it is `Executes <stem>`. The extraction is a total
function of the text. One-layer stripping, as the spec words it, is refuted
by C4_counterexample. -/
theorem C4_theorem (fm rest stem : List Char)
    (hno : ¬ (toL "---") <:+: (fm ++ toL "--")) :
    (gemini_description (toL "---" ++ (fm ++ (toL "---" ++ rest))) stem
      = (match (splitOnNl fm).find?
            (fun line => (toL "description:").isPrefixOf line) with
         | some line => pyStripChar '\"' (pyStrip (afterFirstColon line))
         | none => toL "Executes " ++ stem)) ∧
    (∀ text, ¬ (toL "---") <+: text →
      gemini_description text stem = toL "Executes " ++ stem) ∧
    (∀ text, (toL "---") <+: text → findFrom text (toL "---") 3 = none →
      gemini_description text stem = toL "Executes " ++ stem) := by
  refine ⟨?_, ?_, ?_⟩
  · have hpre : (toL "---") <+: (toL "---" ++ (fm ++ (toL "---" ++ rest))) :=
      List.prefix_append _ _
    have hdrop : (toL "---" ++ (fm ++ (toL "---" ++ rest))).drop 3
        = fm ++ (toL "---" ++ rest) := by
      show (toL "---" ++ (fm ++ (toL "---" ++ rest))).drop (toL "---").length = _
      exact List.drop_left _ _
    have hsf : splitFirst (fm ++ (toL "---" ++ rest)) (toL "---") = some (fm, rest) := by
      refine splitFirst_eq_of fm _ rest rfl ?_
      intro j hj hocc
      obtain ⟨t, ht⟩ := hocc
      exact hno (desc_marker_window hj ht)
    have hff : findFrom (toL "---" ++ (fm ++ (toL "---" ++ rest))) (toL "---") 3
        = some (fm.length + 3) := by
      unfold findFrom pyFind
      rw [hdrop, hsf]
      rfl
    have htake : ((toL "---" ++ (fm ++ (toL "---" ++ rest))).take (fm.length + 3)).drop 3
        = fm := by
      rw [show fm.length + 3 = (toL "---").length + fm.length from by
          show fm.length + 3 = 3 + fm.length
          omega,
        List.take_append, List.take_left]
      show (toL "---" ++ fm).drop (toL "---").length = fm
      exact List.drop_left _ _
    show (if (toL "---") <+: (toL "---" ++ (fm ++ (toL "---" ++ rest))) then
        match findFrom (toL "---" ++ (fm ++ (toL "---" ++ rest))) (toL "---") 3 with
        | none => toL "Executes " ++ stem
        | some e =>
          match (splitOnNl
              (((toL "---" ++ (fm ++ (toL "---" ++ rest))).take e).drop 3)).find?
              (fun line => (toL "description:").isPrefixOf line) with
          | some line => pyStripChar '\"' (pyStrip (afterFirstColon line))
          | none => toL "Executes " ++ stem
      else toL "Executes " ++ stem) = _
    rw [if_pos hpre, hff]
    show (match (splitOnNl
        (((toL "---" ++ (fm ++ (toL "---" ++ rest))).take (fm.length + 3)).drop 3)).find?
        (fun line => (toL "description:").isPrefixOf line) with
      | some line => pyStripChar '\"' (pyStrip (afterFirstColon line))
      | none => toL "Executes " ++ stem) = _
    rw [htake]
  · intro text h1
    show (if (toL "---") <+: text then
        match findFrom text (toL "---") 3 with
        | none => toL "Executes " ++ stem
        | some e =>
          match (splitOnNl ((text.take e).drop 3)).find?
              (fun line => (toL "description:").isPrefixOf line) with
          | some line => pyStripChar '\"' (pyStrip (afterFirstColon line))
          | none => toL "Executes " ++ stem
      else toL "Executes " ++ stem) = _
    rw [if_neg h1]
  · intro text h1 h2
    show (if (toL "---") <+: text then
        match findFrom text (toL "---") 3 with
        | none => toL "Executes " ++ stem
        | some e =>
          match (splitOnNl ((text.take e).drop 3)).find?
              (fun line => (toL "description:").isPrefixOf line) with
          | some line => pyStripChar '\"' (pyStrip (afterFirstColon line))
          | none => toL "Executes " ++ stem
      else toL "Executes " ++ stem) = _
    rw [if_pos h1, h2]

theorem C4_witness :
    (¬ (toL "---") <:+: (toL "\ndescription: ok\n" ++ toL "--")) ∧
    ((gemini_description
        (toL "---" ++ (toL "\ndescription: ok\n" ++ (toL "---" ++ toL "\nbody")))
        (toL "w")
      = (match (splitOnNl (toL "\ndescription: ok\n")).find?
            (fun line => (toL "description:").isPrefixOf line) with
         | some line => pyStripChar '\"' (pyStrip (afterFirstColon line))
         | none => toL "Executes " ++ toL "w")) ∧
    (∀ text, ¬ (toL "---") <+: text →
      gemini_description text (toL "w") = toL "Executes " ++ toL "w") ∧
    (∀ text, (toL "---") <+: text → findFrom text (toL "---") 3 = none →
      gemini_description text (toL "w") = toL "Executes " ++ toL "w")) :=
  ⟨by decide, C4_theorem (toL "\ndescription: ok\n") (toL "\nbody") (toL "w") (by decide)⟩

set_option maxRecDepth 4000 in
/-- C4 counterexample: for the front matter line `description: ""Do""` the
code strips every enclosing quote and derives `Do`, while the spec's
one-layer stripping of the same raw value yields `"Do"` — the two disagree,
so the claimed equality with one-layer stripping is false. -/
theorem C4_counterexample :
    gemini_description (toL "---\ndescription: \"\"Do\"\"\n---\nbody") (toL "w")
        = toL "Do" ∧
    stripOneQuoteLayer
        (pyStrip (afterFirstColon (toL "description: \"\"Do\"\"")))
      = toL "\"Do\"" ∧
    toL "Do" ≠ toL "\"Do\"" := by
  exact ⟨by decide, by decide, by decide⟩

end Bridge
